import Mathlib

/-!
Cycle enumeration in a weighted undirected graph (`src/main.c`).

A shallow embedding of the cycle finder of `src/main.c` and a verification of
its contract.

Modelling conventions.

* `char` vertex labels are `Char`; `int` weights and perimeters are `Int`, and
  the addition `perimeter + weight` of `dfs` is `addInt`, which reduces the sum
  to the 32-bit two's complement range as the compiled program does; `int`
  lengths, counters and indices are `Nat`.
* The arrays `adjList` and `vertices` of `struct Graph` are functions of the
  index.  A linked adjacency list is the `List` of its nodes, head first.
  The vertex lookup loop leaves `i = numVertices` when the label is absent,
  so slot `numVertices` of `adjList` is what the code reads and writes for an
  unknown label; the model keeps that slot like any other.
* The process-wide registry `cycles[0 .. numCycles)` is a `List Cycle`
  threaded through the functions; `numCycles` is its length.  The array has
  `MAX_EDGES` slots and the program stores into it without a check: a run of
  the model is a run of the program as long as the registry has at most
  `MAX_EDGES` entries (`RegistryFits`).  `dfsChecked` and `findCyclesChecked`
  are the same functions with the array bound made explicit: a store past the
  last slot ends the run with `some none`.  The theorems on completeness and
  on termination are about runs within the array.
* The buffer `path` together with the argument `length` of `dfs` is the list
  of the first `length` entries of the buffer; `path[length] = v` appends.
  The array `nodes` of a stored cycle is the list of the bytes copied by
  `memcpy`.
* The recursion of `dfs` is bounded by a fuel argument; `none` means that
  the fuel ran out.  `dfsFuel` is a bound that always suffices.
* `printCycles` takes the registry and returns what it prints: the four counts
  and one record for each printed cycle.
-/

namespace CycleFinder

/-! ## Data model -/

/-- Record `struct Edge`: one line of the input file. -/
structure Edge where
  start : Char
  «end» : Char
  weight : Int
deriving DecidableEq

/-- Record `struct Node`: one cell of an adjacency list (the `next` pointer is
the tail of the list that holds the cell). -/
structure Node where
  vertex : Char
  weight : Int
deriving DecidableEq

/-- Record `struct Graph`. -/
structure Graph where
  adjList : Nat → List Node
  numVertices : Nat
  vertices : Nat → Char

/-- Record `struct Cycle`. -/
structure Cycle where
  nodes : List Char
  length : Nat
  perimeter : Int
deriving DecidableEq

/-! ## Graph construction -/

/-- Function `createGraph`: `mem` is the block returned by `malloc`; only
`numVertices` and the first `vertices` adjacency slots are initialised. -/
def createGraph (mem : Graph) (vertices : Nat) : Graph :=
  { adjList := fun i => if i < vertices then [] else mem.adjList i
    numVertices := vertices
    vertices := mem.vertices }

/-- Function `createNode`. -/
def createNode (vertex : Char) (weight : Int) : Node :=
  { vertex := vertex, weight := weight }

/-- The lookup loop `for (i = 0; i < numVertices; i++) if (vertices[i] == v) break;`
with `k` iterations left and the counter at `i`; the result is the final `i`. -/
def scanVertices (vertices : Nat → Char) (v : Char) : Nat → Nat → Nat
  | 0, i => i
  | k + 1, i => if vertices i = v then i else scanVertices vertices v k (i + 1)

/-- Index found by the lookup loop: the first `i < numVertices` with
`vertices[i] == v`, and `numVertices` when there is none. -/
def vertexIndex (g : Graph) (v : Char) : Nat :=
  scanVertices g.vertices v g.numVertices 0

/-- The two statements `newNode->next = adjList[i]; adjList[i] = newNode;`. -/
def pushFront (g : Graph) (i : Nat) (n : Node) : Graph :=
  { g with adjList := fun j => if j = i then n :: g.adjList i else g.adjList j }

/-- Function `addEdge`. -/
def addEdge (g : Graph) (start «end» : Char) (weight : Int) : Graph :=
  let g1 := pushFront g (vertexIndex g start) (createNode «end» weight)
  pushFront g1 (vertexIndex g1 «end») (createNode start weight)

/-- The loop of `readGraphFromFile` over the parsed records. -/
def addEdges (g : Graph) (es : List Edge) : Graph :=
  es.foldl (fun acc e => addEdge acc e.start e.«end» e.weight) g

/-- Adjacency list that the code walks for the label `v`. -/
def neighbors (g : Graph) (v : Char) : List Node :=
  g.adjList (vertexIndex g v)

/-! ## Cycle registry -/

/-- Function `isVisited`. -/
def isVisited (path : List Char) (length : Nat) (vertex : Char) : Bool :=
  (path.take length).any (fun c => c == vertex)

/-- Function `isCycleUnique`, with the registry as an argument. -/
def isCycleUnique (cycles : List Cycle) (nodes : List Char) (length : Nat)
    (perimeter : Int) : Bool :=
  cycles.all (fun c =>
    !(decide (c.length = length ∧ c.perimeter = perimeter) &&
      (nodes.take length).all (fun x => isVisited c.nodes length x)))

/-- The registration block of `dfs` (the body of its first `if`). -/
def registerCycle (cycles : List Cycle) (path : List Char) (length : Nat)
    (perimeter : Int) : List Cycle :=
  if isCycleUnique cycles path length perimeter then
    cycles ++ [{ nodes := path.take length, length := length, perimeter := perimeter }]
  else cycles

/-! ## Depth-first search -/

/-- The value of a C `int` (32 bits, two's complement) that holds `x` reduced
modulo `2^32`. -/
def wrapInt (x : Int) : Int := (x + 2147483648) % 4294967296 - 2147483648

/-- The sum `a + b` of two C `int`s, as the program computes it. -/
def addInt (a b : Int) : Int := wrapInt (a + b)

/-- The `while (adjList)` loop of `dfs`; `rec` is the recursive call. -/
def dfsLoop (rec : Char → List Char → Int → List Cycle → Option (List Cycle))
    (path : List Char) (perimeter : Int) :
    List Node → List Cycle → Option (List Cycle)
  | [], cycles => some cycles
  | n :: rest, cycles =>
    if isVisited path path.length n.vertex = false ∨
        (path.length > 2 ∧ path.head? = some n.vertex) then
      match rec n.vertex (path ++ [n.vertex]) (addInt perimeter n.weight) cycles with
      | none => none
      | some cycles1 => dfsLoop rec path perimeter rest cycles1
    else dfsLoop rec path perimeter rest cycles

/-- Function `dfs`, with the recursion depth bounded by the first argument. -/
def dfs : Nat → Graph → Char → List Char → Int → List Cycle → Option (List Cycle)
  | 0, _, _, _, _, _ => none
  | fuel + 1, g, start, path, perimeter, cycles =>
    if path.length > 2 ∧ path.head? = some start then
      some (registerCycle cycles path path.length perimeter)
    else
      dfsLoop (dfs fuel g) path perimeter (g.adjList (vertexIndex g start)) cycles

/-- The `for` loop of `findCycles` with `k` roots left and the counter at `i`. -/
def findCyclesFrom (fuel : Nat) (g : Graph) : Nat → Nat → List Cycle → Option (List Cycle)
  | 0, _, cycles => some cycles
  | k + 1, i, cycles =>
    match dfs fuel g (g.vertices i) [g.vertices i] 0 cycles with
    | none => none
    | some cycles1 => findCyclesFrom fuel g k (i + 1) cycles1

/-- Function `findCycles`, with the registry as an argument and a result. -/
def findCycles (fuel : Nat) (g : Graph) (cycles : List Cycle) : Option (List Cycle) :=
  findCyclesFrom fuel g g.numVertices 0 cycles

/-! ## The run inside the array `cycles`

The same functions, the registry being the first `numCycles` of the
`MAX_EDGES` slots of `cycles`.  The outer `none` means that the fuel ran out;
`some none` means that the run stored past the last slot. -/

/-- The adjacency cells in the slots `0 .. numVertices`, slot after slot. -/
def allCells (g : Graph) : List Node :=
  (List.range (g.numVertices + 1)).flatMap g.adjList

/-- Number of adjacency cells in the slots `0 .. numVertices`. -/
def numCells (g : Graph) : Nat := (allCells g).length

/-- A recursion depth that suffices for every root of `g`. -/
def dfsFuel (g : Graph) : Nat := numCells g + 2

/-! ## Candidates submitted to the registry

The walk of `dfs` through the graph does not depend on the registry: it
submits a fixed sequence of candidates, and the registry is the fold of
`registerCycle` over that sequence (`dfs_eq_cands` below). -/

/-- A candidate: the path handed to `isCycleUnique` and its perimeter. -/
abbrev Cand := List Char × Int

/-- Registration of a sequence of candidates, in order. -/
def registerAll (cycles : List Cycle) (cs : List Cand) : List Cycle :=
  cs.foldl (fun acc c => registerCycle acc c.1 c.1.length c.2) cycles

/-- Candidates submitted by the `while` loop of `dfs`. -/
def candsLoop (rec : Char → List Char → Int → Option (List Cand))
    (path : List Char) (perimeter : Int) : List Node → Option (List Cand)
  | [] => some []
  | n :: rest =>
    if isVisited path path.length n.vertex = false ∨
        (path.length > 2 ∧ path.head? = some n.vertex) then
      match rec n.vertex (path ++ [n.vertex]) (addInt perimeter n.weight) with
      | none => none
      | some cs =>
        match candsLoop rec path perimeter rest with
        | none => none
        | some cs1 => some (cs ++ cs1)
    else candsLoop rec path perimeter rest

/-- Candidates submitted by `dfs`, in order. -/
def dfsCands : Nat → Graph → Char → List Char → Int → Option (List Cand)
  | 0, _, _, _, _ => none
  | fuel + 1, g, start, path, perimeter =>
    if path.length > 2 ∧ path.head? = some start then
      some [(path, perimeter)]
    else
      candsLoop (dfsCands fuel g) path perimeter (g.adjList (vertexIndex g start))

/-- Candidates submitted by the loop of `findCycles`. -/
def findCandsFrom (fuel : Nat) (g : Graph) : Nat → Nat → Option (List Cand)
  | 0, _ => some []
  | k + 1, i =>
    match dfsCands fuel g (g.vertices i) [g.vertices i] 0 with
    | none => none
    | some cs =>
      match findCandsFrom fuel g k (i + 1) with
      | none => none
      | some cs1 => some (cs ++ cs1)

/-- Candidates submitted by `findCycles`, in order. -/
def findCands (fuel : Nat) (g : Graph) : Option (List Cand) :=
  findCandsFrom fuel g g.numVertices 0

/-! ## Paths built by the search

The same recursion as `dfs`, recording the argument `path` of every call
instead of updating the registry. -/

/-- One line printed for a cycle: the class (3, 4 or 5 for "3'gen", "4'gen",
"5'gen"), the ordinal within the class, the printed nodes and the printed
perimeter ("Uzunluk"). -/
structure Line where
  sides : Nat
  index : Nat
  nodes : List Char
  perimeter : Int
deriving DecidableEq

/-- What `printCycles` prints: the four counts ("Sekil", "3'gen", "4'gen",
"5'gen Sayisi") and the lines of the cycles. -/
structure Report where
  shapes : Nat
  triangles : Nat
  quadrilaterals : Nat
  pentagons : Nat
  lines : List Line
deriving DecidableEq

/-- The first loop of `printCycles`, with the counters `triangleCount`,
`quadrilateralCount` and `pentagonCount` as the state. -/
def countLoop : List Cycle → Nat × Nat × Nat → Nat × Nat × Nat
  | [], acc => acc
  | c :: rest, (t, q, p) =>
    if c.length = 4 then countLoop rest (t + 1, q, p)
    else if c.length = 5 then countLoop rest (t, q + 1, p)
    else if c.length = 6 then countLoop rest (t, q, p + 1)
    else countLoop rest (t, q, p)

/-- The second loop of `printCycles`, with the indices `triangleIndex`,
`quadrilateralIndex` and `pentagonIndex` as the state. -/
def printLoop : List Cycle → Nat × Nat × Nat → List Line
  | [], _ => []
  | c :: rest, (t, q, p) =>
    if c.length = 4 then
      ⟨3, t, c.nodes.take c.length, c.perimeter⟩ :: printLoop rest (t + 1, q, p)
    else if c.length = 5 then
      ⟨4, q, c.nodes.take c.length, c.perimeter⟩ :: printLoop rest (t, q + 1, p)
    else if c.length = 6 then
      ⟨5, p, c.nodes.take c.length, c.perimeter⟩ :: printLoop rest (t, q, p + 1)
    else printLoop rest (t, q, p)

/-- Function `printCycles`, with the registry as an argument and the printed
values as the result. -/
def printCycles (cycles : List Cycle) : Report :=
  { shapes := cycles.length
    triangles := (countLoop cycles (0, 0, 0)).1
    quadrilaterals := (countLoop cycles (0, 0, 0)).2.1
    pentagons := (countLoop cycles (0, 0, 0)).2.2
    lines := printLoop cycles (1, 1, 1) }

/-! ## Specification vocabulary -/

/-- The label `v` is one of the graph's vertices. -/
def IsVertex (g : Graph) (v : Char) : Prop :=
  ∃ i, i < g.numVertices ∧ g.vertices i = v

/-- The labels `path` are joined, each to the next, by adjacency cells whose
weights are `ws` in order. -/
def Walk (g : Graph) : List Char → List Int → Prop
  | [_], [] => True
  | u :: v :: rest, w :: ws => (⟨v, w⟩ : Node) ∈ neighbors g u ∧ Walk g (v :: rest) ws
  | _, _ => False

/-- Vertex set of a stored cycle. -/
def Cycle.vertexSet (c : Cycle) : Finset Char := (c.nodes.take c.length).toFinset

/-- The (length, perimeter, vertex set) triple of a stored cycle. -/
def Cycle.triple (c : Cycle) : Nat × Int × Finset Char :=
  (c.length, c.perimeter, c.vertexSet)

/-- The labels `vs` are the distinct vertices of a simple cycle, in order, and
`ws` are the weights of the chosen adjacency cells, the closing one last. -/
def SimpleCycle (g : Graph) (vs : List Char) (ws : List Int) : Prop :=
  3 ≤ vs.length ∧ vs.Nodup ∧ Walk g (vs ++ vs.take 1) ws

/-- The entry `c` records a simple cycle of `g` that starts at one of the
roots tried by `findCycles`: the nodes are the cycle's vertices followed by
the first one again, the length counts that closing slot, and the perimeter is
the sum of the weights of the chosen cells. -/
def Recorded (g : Graph) (c : Cycle) : Prop :=
  ∃ vs ws, SimpleCycle g vs ws ∧
    (∃ j, j < g.numVertices ∧ vs.head? = some (g.vertices j)) ∧
    c = ⟨vs ++ vs.take 1, vs.length + 1, wrapInt ws.sum⟩

instance instDecidableIsVertex (g : Graph) (v : Char) : Decidable (IsVertex g v) := by
  unfold IsVertex
  infer_instance

/-- Decision procedure for `Walk`. -/
def decWalk (g : Graph) : (p : List Char) → (ws : List Int) → Decidable (Walk g p ws)
  | [], _ => isFalse (by simp [Walk])
  | [_], [] => isTrue trivial
  | [_], _ :: _ => isFalse (by simp [Walk])
  | _ :: _ :: _, [] => isFalse (by simp [Walk])
  | u :: v :: rest, w :: ws =>
    match decWalk g (v :: rest) ws with
    | isTrue h =>
      if hm : (⟨v, w⟩ : Node) ∈ neighbors g u then isTrue ⟨hm, h⟩
      else isFalse (fun hw => hm hw.1)
    | isFalse h => isFalse (fun hw => h hw.2)

instance instDecidableWalk (g : Graph) (p : List Char) (ws : List Int) :
    Decidable (Walk g p ws) := decWalk g p ws

instance instDecidableSimpleCycle (g : Graph) (vs : List Char) (ws : List Int) :
    Decidable (SimpleCycle g vs ws) := by
  unfold SimpleCycle
  infer_instance

/-- The same record with its two endpoints exchanged. -/
def Edge.swap (e : Edge) : Edge := ⟨e.«end», e.start, e.weight⟩

/-- The records `es2` are those of `es1` in another order, some of them with
their two endpoints exchanged. -/
def SameEdges (es1 es2 : List Edge) : Prop :=
  ∃ es, List.Forall₂ (fun a b => b = a ∨ b = a.swap) es1 es ∧ es.Perm es2

/-- The first `length` entries of `nodes` form a closed simple path: the first
`length - 1` of them are pairwise distinct and the last one equals the
first. -/
def IsClosedSimple (nodes : List Char) (length : Nat) : Prop :=
  length ≤ nodes.length ∧ (nodes.take (length - 1)).Nodup ∧
    nodes[length - 1]? = nodes[0]?

instance instDecidableIsClosedSimple (nodes : List Char) (length : Nat) :
    Decidable (IsClosedSimple nodes length) := by
  unfold IsClosedSimple
  infer_instance

/-- The weights of `g` are small enough for no sum along a path of `dfs` to
leave the range of `int`: a path has at most `numCells g + 1` edges, and every
weight times that number stays within `INT_MAX`. -/
def SmallWeights (g : Graph) : Prop :=
  ∀ n ∈ allCells g, -2147483647 ≤ n.weight * ((numCells g : Int) + 1) ∧
    n.weight * ((numCells g : Int) + 1) ≤ 2147483647

instance instDecidableSmallWeights (g : Graph) : Decidable (SmallWeights g) := by
  unfold SmallWeights
  infer_instance

/-- The vertex array set up by `main`. -/
def mainVertices : Nat → Char := fun i => ['A', 'B', 'C', 'D', 'E', 'F', 'G'].getD i 'G'

/-- The graph of `main` before any edge is read. -/
def mainGraph : Graph :=
  createGraph { adjList := fun _ => [], numVertices := 0, vertices := mainVertices } 7

/-- The triangle A-B(1), B-C(2), C-A(3) on the vertices of `main`. -/
def triangle : Graph :=
  addEdges mainGraph [⟨'A', 'B', 1⟩, ⟨'B', 'C', 2⟩, ⟨'C', 'A', 3⟩]

/-- The records of scenario 3: the 4-cycle A-B-C-D-A and the chord A-C, all of
weight 1, in the order of the scenario. -/
def chordEdges : List Edge :=
  [⟨'A', 'B', 1⟩, ⟨'B', 'C', 1⟩, ⟨'C', 'D', 1⟩, ⟨'D', 'A', 1⟩, ⟨'A', 'C', 1⟩]

/-- The graph of scenario 3 on the vertices of `main`. -/
def squareChord : Graph := addEdges mainGraph chordEdges

/-- The six records of the complete graph on A, B, C, D, all of weight 1. -/
def k4Edges : List Edge :=
  [⟨'A', 'B', 1⟩, ⟨'A', 'C', 1⟩, ⟨'A', 'D', 1⟩, ⟨'B', 'C', 1⟩, ⟨'B', 'D', 1⟩, ⟨'C', 'D', 1⟩]

/-- The graph with the vertex array A, B, C, D and no edge. -/
def graphABCD : Graph :=
  createGraph
    { adjList := fun _ => [], numVertices := 0,
      vertices := fun i => ['A', 'B', 'C', 'D'].getD i 'D' } 4

/-- The complete graph on A, B, C, D with all weights 1. -/
def completeK4 : Graph := addEdges graphABCD k4Edges

/-- The simple cycles of `completeK4`, one for each class under rotation and
reflection: the four triangles and the three quadrilaterals. -/
def k4Cycles : List (List Char) :=
  [['A', 'B', 'C'], ['A', 'B', 'D'], ['A', 'C', 'D'], ['B', 'C', 'D'],
    ['A', 'B', 'C', 'D'], ['A', 'B', 'D', 'C'], ['A', 'C', 'B', 'D']]

/-- The cycle `vs` is `r` up to rotation and reflection. -/
def SameCycle (vs r : List Char) : Prop := vs.IsRotated r ∨ vs.IsRotated r.reverse

instance instDecidableSameCycle (vs r : List Char) : Decidable (SameCycle vs r) := by
  unfold SameCycle
  infer_instance

theorem registerAll_append (reg : List Cycle) (cs cs1 : List Cand) :
    registerAll reg (cs ++ cs1) = registerAll (registerAll reg cs) cs1 := by
  simp [registerAll, List.foldl_append]

theorem dfsLoop_eq_cands
    (rec : Char → List Char → Int → List Cycle → Option (List Cycle))
    (recC : Char → List Char → Int → Option (List Cand))
    (hrec : ∀ s p q r, rec s p q r = (recC s p q).map (registerAll r))
    (path : List Char) (perimeter : Int) (adj : List Node) :
    ∀ reg, dfsLoop rec path perimeter adj reg
      = (candsLoop recC path perimeter adj).map (registerAll reg) := by
  induction adj with
  | nil => intro reg; simp [dfsLoop, candsLoop, registerAll]
  | cons n rest ih =>
    intro reg
    simp only [dfsLoop, candsLoop]
    split
    · rw [hrec]
      cases hc : recC n.vertex (path ++ [n.vertex]) (addInt perimeter n.weight) with
      | none => simp
      | some cs =>
        simp only [Option.map_some']
        rw [ih]
        cases candsLoop recC path perimeter rest with
        | none => simp
        | some cs1 => simp [registerAll_append]
    · exact ih reg

theorem dfs_eq_cands (g : Graph) :
    ∀ fuel start path perimeter reg,
      dfs fuel g start path perimeter reg
        = (dfsCands fuel g start path perimeter).map (registerAll reg) := by
  intro fuel
  induction fuel with
  | zero => intros; simp [dfs, dfsCands]
  | succ f ih =>
    intro start path perimeter reg
    simp only [dfs, dfsCands]
    split
    · simp [registerAll]
    · exact dfsLoop_eq_cands _ _ ih _ _ _ _

theorem findCyclesFrom_eq_cands (fuel : Nat) (g : Graph) :
    ∀ k i reg, findCyclesFrom fuel g k i reg
      = (findCandsFrom fuel g k i).map (registerAll reg) := by
  intro k
  induction k with
  | zero => intros; simp [findCyclesFrom, findCandsFrom, registerAll]
  | succ k ih =>
    intro i reg
    simp only [findCyclesFrom, findCandsFrom]
    rw [dfs_eq_cands]
    cases dfsCands fuel g (g.vertices i) [g.vertices i] 0 with
    | none => simp
    | some cs =>
      simp only [Option.map_some']
      rw [ih]
      cases findCandsFrom fuel g k (i + 1) with
      | none => simp
      | some cs1 => simp [registerAll_append]

theorem findCycles_eq_cands (fuel : Nat) (g : Graph) (reg : List Cycle) :
    findCycles fuel g reg = (findCands fuel g).map (registerAll reg) :=
  findCyclesFrom_eq_cands fuel g _ _ reg

theorem addInt_wrapInt (a b : Int) : addInt (wrapInt a) b = wrapInt (a + b) := by
  unfold addInt wrapInt
  omega

theorem wrapInt_addInt (a b c : Int) : wrapInt (addInt a b + c) = wrapInt (a + (b + c)) := by
  unfold addInt wrapInt
  omega

theorem wrapInt_congr_add (a b c : Int) (h : wrapInt a = wrapInt b) :
    wrapInt (a + c) = wrapInt (b + c) := by
  unfold wrapInt at h ⊢
  omega

theorem isVisited_eq_false (path : List Char) (v : Char) :
    isVisited path path.length v = false ↔ v ∉ path := by
  simp [isVisited]
  constructor
  · intro h hv; exact h v hv rfl
  · intro h x hx hxv; exact h (hxv ▸ hx)

theorem isVisited_eq_true (path : List Char) (v : Char) :
    isVisited path path.length v = true ↔ v ∈ path := by
  simp [isVisited]

theorem Walk_ne_nil (g : Graph) : ∀ p ws, Walk g p ws → p ≠ [] := by
  intro p ws h hp
  subst hp
  simp [Walk] at h

theorem Walk_length (g : Graph) : ∀ p ws, Walk g p ws → p.length = ws.length + 1 := by
  intro p
  induction p with
  | nil => intro ws h; simp [Walk] at h
  | cons u t ih =>
    intro ws h
    cases t with
    | nil =>
      cases ws with
      | nil => rfl
      | cons w ws => simp [Walk] at h
    | cons v rest =>
      cases ws with
      | nil => simp [Walk] at h
      | cons w ws =>
        simp only [Walk] at h
        have := ih ws h.2
        simp at this ⊢
        omega

theorem Walk_append (g : Graph) (v : Char) (w : Int) :
    ∀ p ws u, Walk g p ws → p.getLast? = some u → (⟨v, w⟩ : Node) ∈ neighbors g u →
      Walk g (p ++ [v]) (ws ++ [w]) := by
  intro p
  induction p with
  | nil => intro ws u h; simp [Walk] at h
  | cons a t ih =>
    intro ws u h hlast hmem
    cases t with
    | nil =>
      cases ws with
      | nil =>
        simp at hlast
        subst hlast
        simp [Walk, hmem]
      | cons w1 ws => simp [Walk] at h
    | cons b rest =>
      cases ws with
      | nil => simp [Walk] at h
      | cons w1 ws =>
        simp only [Walk] at h
        have hl : (b :: rest).getLast? = some u := by
          simpa [List.getLast?_cons_cons] using hlast
        have := ih ws u h.2 hl hmem
        simp only [List.cons_append, Walk] at this ⊢
        exact ⟨h.1, this⟩

theorem candsLoop_mem (rec : Char → List Char → Int → Option (List Cand))
    (path : List Char) (perimeter : Int) :
    ∀ adj cs, candsLoop rec path perimeter adj = some cs → ∀ c ∈ cs,
      ∃ n ∈ adj, (isVisited path path.length n.vertex = false ∨
          (path.length > 2 ∧ path.head? = some n.vertex)) ∧
        ∃ cs1, rec n.vertex (path ++ [n.vertex]) (addInt perimeter n.weight) = some cs1 ∧ c ∈ cs1 := by
  intro adj
  induction adj with
  | nil => intro cs h c hc; simp [candsLoop] at h; subst h; simp at hc
  | cons n rest ih =>
    intro cs h c hc
    simp only [candsLoop] at h
    split at h
    · rename_i hcond
      cases hr : rec n.vertex (path ++ [n.vertex]) (addInt perimeter n.weight) with
      | none => simp [hr] at h
      | some cs1 =>
        cases hl : candsLoop rec path perimeter rest with
        | none => simp [hr, hl] at h
        | some cs2 =>
          simp [hr, hl] at h
          subst h
          rcases List.mem_append.1 hc with h1 | h2
          · exact ⟨n, List.mem_cons_self _ _, hcond, cs1, hr, h1⟩
          · obtain ⟨m, hm, hmc, cs3, h3, h4⟩ := ih cs2 hl c h2
            exact ⟨m, List.mem_cons_of_mem _ hm, hmc, cs3, h3, h4⟩
    · obtain ⟨m, hm, hmc, cs3, h3, h4⟩ := ih cs h c hc
      exact ⟨m, List.mem_cons_of_mem _ hm, hmc, cs3, h3, h4⟩

theorem candsLoop_sub (rec : Char → List Char → Int → Option (List Cand))
    (path : List Char) (perimeter : Int) :
    ∀ adj cs, candsLoop rec path perimeter adj = some cs → ∀ n ∈ adj,
      (isVisited path path.length n.vertex = false ∨
          (path.length > 2 ∧ path.head? = some n.vertex)) →
        ∃ cs1, rec n.vertex (path ++ [n.vertex]) (addInt perimeter n.weight) = some cs1 ∧
          ∀ c ∈ cs1, c ∈ cs := by
  intro adj
  induction adj with
  | nil => intro cs _ n hn; simp at hn
  | cons m rest ih =>
    intro cs h n hn hcond
    simp only [candsLoop] at h
    split at h
    · cases hr : rec m.vertex (path ++ [m.vertex]) (addInt perimeter m.weight) with
      | none => simp [hr] at h
      | some cs1 =>
        cases hl : candsLoop rec path perimeter rest with
        | none => simp [hr, hl] at h
        | some cs2 =>
          simp [hr, hl] at h
          subst h
          rcases List.mem_cons.1 hn with h1 | h2
          · subst h1
            exact ⟨cs1, hr, fun c hc => List.mem_append_left _ hc⟩
          · obtain ⟨cs3, h3, h4⟩ := ih cs2 hl n h2 hcond
            exact ⟨cs3, h3, fun c hc => List.mem_append_right _ (h4 c hc)⟩
    · rename_i hno
      rcases List.mem_cons.1 hn with h1 | h2
      · subst h1; exact absurd hcond hno
      · exact ih cs h n h2 hcond

theorem candsLoop_isSome (rec : Char → List Char → Int → Option (List Cand))
    (path : List Char) (perimeter : Int) :
    ∀ adj, (∀ n ∈ adj, (isVisited path path.length n.vertex = false ∨
          (path.length > 2 ∧ path.head? = some n.vertex)) →
        ∃ cs1, rec n.vertex (path ++ [n.vertex]) (addInt perimeter n.weight) = some cs1) →
      ∃ cs, candsLoop rec path perimeter adj = some cs := by
  intro adj
  induction adj with
  | nil => intro _; exact ⟨[], rfl⟩
  | cons m rest ih =>
    intro h
    obtain ⟨cs2, h2⟩ := ih (fun n hn hc => h n (List.mem_cons_of_mem _ hn) hc)
    simp only [candsLoop]
    split
    · rename_i hcond
      obtain ⟨cs1, h1⟩ := h m (List.mem_cons_self _ _) hcond
      exact ⟨cs1 ++ cs2, by simp [h1, h2]⟩
    · exact ⟨cs2, h2⟩

theorem head_ne_last_of_nodup (path : List Char) (s : Char) (hnd : path.Nodup)
    (hlen : path.length > 2) (hlast : path.getLast? = some s) : path.head? ≠ some s := by
  intro hhead
  cases path with
  | nil => simp at hlen
  | cons a t =>
    cases t with
    | nil => simp at hlen
    | cons b r =>
      simp at hhead
      subst hhead
      rw [List.getLast?_cons_cons] at hlast
      have hm : a ∈ b :: r := List.mem_of_getLast?_eq_some hlast
      exact (List.nodup_cons.1 hnd).1 hm

theorem dfsCands_closed (g : Graph) (fuel : Nat) (start : Char) (path : List Char)
    (perimeter : Int) (cs : List Cand)
    (hlen : path.length > 2) (hhead : path.head? = some start)
    (h : dfsCands fuel g start path perimeter = some cs) : cs = [(path, perimeter)] := by
  cases fuel with
  | zero => simp [dfsCands] at h
  | succ f =>
    simp only [dfsCands] at h
    rw [if_pos ⟨hlen, hhead⟩] at h
    simpa using h.symm

theorem dfsCands_sound (g : Graph) :
    ∀ fuel start path perimeter ws0 cs, path.Nodup → Walk g path ws0 →
      perimeter = wrapInt ws0.sum → path.getLast? = some start →
      dfsCands fuel g start path perimeter = some cs →
      ∀ c ∈ cs, ∃ vs ws, SimpleCycle g vs ws ∧ c = (vs ++ vs.take 1, wrapInt ws.sum) ∧
        vs.head? = path.head? := by
  intro fuel
  induction fuel with
  | zero => intro start path perimeter ws0 cs _ _ _ _ h; simp [dfsCands] at h
  | succ f ih =>
    intro start path perimeter ws0 cs hnd hwalk hper hlast h c hc
    have hne : path ≠ [] := Walk_ne_nil g _ _ hwalk
    simp only [dfsCands] at h
    rw [if_neg] at h
    swap
    · rintro ⟨h1, h2⟩
      exact head_ne_last_of_nodup path start hnd h1 hlast h2
    obtain ⟨n, hn, hcond, cs1, hrec, hc1⟩ := candsLoop_mem _ _ _ _ _ h c hc
    have hhead : (path ++ [n.vertex]).head? = path.head? := by
      cases path with
      | nil => exact absurd rfl hne
      | cons a t => rfl
    by_cases hmem : n.vertex ∈ path
    · rcases hcond with hv | ⟨hl, hh⟩
      · exact absurd hmem ((isVisited_eq_false _ _).1 hv)
      · have hcl := dfsCands_closed g f n.vertex (path ++ [n.vertex]) _ cs1
          (by simp; omega) (by rw [hhead]; exact hh) hrec
        subst hcl
        simp at hc1
        have htake : path.take 1 = [n.vertex] := by
          cases path with
          | nil => exact absurd rfl hne
          | cons a t => simp at hh; simp [hh]
        refine ⟨path, ws0 ++ [n.weight], ⟨by omega, hnd, ?_⟩, ?_, rfl⟩
        · rw [htake]
          exact Walk_append g _ _ _ _ start hwalk hlast hn
        · rw [hc1, htake, hper, addInt_wrapInt]; simp
    · have hnd1 : (path ++ [n.vertex]).Nodup := by
        rw [List.nodup_append]
        refine ⟨hnd, List.nodup_singleton _, ?_⟩
        intro x hx hx1
        simp at hx1
        subst hx1
        exact hmem hx
      obtain ⟨vs, ws, h1, h2, h3⟩ := ih n.vertex (path ++ [n.vertex]) (addInt perimeter n.weight)
        (ws0 ++ [n.weight]) cs1 hnd1 (Walk_append g _ _ _ _ start hwalk hlast hn)
        (by rw [hper, addInt_wrapInt]; simp) (by simp) hrec c hc1
      exact ⟨vs, ws, h1, h2, by rw [h3, hhead]⟩

theorem scanVertices_le (vertices : Nat → Char) (v : Char) :
    ∀ k i, scanVertices vertices v k i ≤ i + k := by
  intro k
  induction k with
  | zero => intro i; simp [scanVertices]
  | succ k ih =>
    intro i
    simp only [scanVertices]
    split
    · omega
    · have := ih (i + 1); omega

theorem vertexIndex_le (g : Graph) (v : Char) : vertexIndex g v ≤ g.numVertices := by
  have := scanVertices_le g.vertices v g.numVertices 0
  simpa [vertexIndex] using this

theorem mem_allCells_of_neighbors (g : Graph) (u : Char) (n : Node)
    (h : n ∈ g.adjList (vertexIndex g u)) : n ∈ allCells g := by
  unfold allCells
  rw [List.mem_flatMap]
  exact ⟨vertexIndex g u, List.mem_range.2 (Nat.lt_succ_of_le (vertexIndex_le g u)), h⟩

theorem open_path_length_le (g : Graph) (path : List Char) (hnd : path.Nodup)
    (hlab : ∀ x ∈ path.tail, x ∈ (allCells g).map Node.vertex) :
    path.length ≤ numCells g + 1 := by
  have h1 : path.tail.Nodup := hnd.sublist (List.tail_sublist _)
  have h2 : path.tail.length ≤ ((allCells g).map Node.vertex).length :=
    (List.subperm_of_subset h1 hlab).length_le
  simp at h2
  unfold numCells
  omega

theorem dfsCands_total (g : Graph) :
    ∀ fuel start path perimeter, path.Nodup → path ≠ [] →
      (∀ x ∈ path.tail, x ∈ (allCells g).map Node.vertex) →
      numCells g + 3 ≤ fuel + path.length →
      ∃ cs, dfsCands fuel g start path perimeter = some cs := by
  intro fuel
  induction fuel with
  | zero =>
    intro start path perimeter hnd _ hlab hf
    have := open_path_length_le g path hnd hlab
    omega
  | succ f ih =>
    intro start path perimeter hnd hne hlab hf
    have hlen := open_path_length_le g path hnd hlab
    simp only [dfsCands]
    split
    · exact ⟨_, rfl⟩
    · apply candsLoop_isSome
      intro n hn hcond
      have hhead : (path ++ [n.vertex]).head? = path.head? := by
        cases path with
        | nil => exact absurd rfl hne
        | cons a t => rfl
      by_cases hmem : n.vertex ∈ path
      · rcases hcond with hv | ⟨hl, hh⟩
        · exact absurd hmem ((isVisited_eq_false _ _).1 hv)
        · cases f with
          | zero => omega
          | succ f1 =>
            refine ⟨[(path ++ [n.vertex], addInt perimeter n.weight)], ?_⟩
            simp only [dfsCands]
            rw [if_pos]
            exact ⟨by simp; omega, by rw [hhead]; exact hh⟩
      · apply ih
        · rw [List.nodup_append]
          refine ⟨hnd, List.nodup_singleton _, ?_⟩
          intro x hx hx1
          simp at hx1
          subst hx1
          exact hmem hx
        · simp
        · intro x hx
          have : x ∈ path.tail ∨ x = n.vertex := by
            cases path with
            | nil => exact absurd rfl hne
            | cons a t => simpa using hx
          rcases this with h1 | h1
          · exact hlab x h1
          · subst h1
            exact List.mem_map_of_mem _ (mem_allCells_of_neighbors g start n hn)
        · simp; omega

theorem findCandsFrom_total (g : Graph) (fuel : Nat) (hf : dfsFuel g ≤ fuel) :
    ∀ k i, ∃ cs, findCandsFrom fuel g k i = some cs := by
  intro k
  induction k with
  | zero => intro i; exact ⟨[], rfl⟩
  | succ k ih =>
    intro i
    obtain ⟨cs, h⟩ := dfsCands_total g fuel (g.vertices i) [g.vertices i] 0
      (List.nodup_singleton _) (by simp) (by simp) (by unfold dfsFuel at hf; simp; omega)
    obtain ⟨cs1, h1⟩ := ih (i + 1)
    exact ⟨cs ++ cs1, by simp [findCandsFrom, h, h1]⟩

theorem findCands_total (g : Graph) (k : Nat) :
    ∃ cs, findCands (dfsFuel g + k) g = some cs :=
  findCandsFrom_total g _ (Nat.le_add_right _ _) _ _

theorem dfsCands_complete (g : Graph) (r : Char) :
    ∀ q fuel start path perimeter wq cs, path.head? = some r → (path ++ q).Nodup →
      path.getLast? = some start → Walk g (start :: q ++ [r]) wq →
      3 ≤ (path ++ q).length →
      dfsCands fuel g start path perimeter = some cs →
      (path ++ q ++ [r], wrapInt (perimeter + wq.sum)) ∈ cs := by
  intro q
  induction q with
  | nil =>
    intro fuel start path perimeter wq cs hhead hnd hlast hwalk hlen h
    simp only [List.append_nil] at hnd hlen ⊢
    cases fuel with
    | zero => simp [dfsCands] at h
    | succ f =>
      simp only [dfsCands] at h
      rw [if_neg] at h
      swap
      · rintro ⟨h1, h2⟩
        exact head_ne_last_of_nodup path start hnd h1 hlast h2
      cases wq with
      | nil => simp [Walk] at hwalk
      | cons w wq1 =>
        cases wq1 with
        | cons w2 wq2 => simp [Walk] at hwalk
        | nil =>
          simp only [List.nil_append, Walk, and_true] at hwalk
          obtain ⟨cs1, hrec, hsub⟩ := candsLoop_sub _ _ _ _ _ h ⟨r, w⟩ hwalk
            (Or.inr ⟨by omega, hhead⟩)
          have hhead1 : (path ++ [r]).head? = some r := by
            cases path with
            | nil => simp at hhead
            | cons a t => simpa using hhead
          have hcl := dfsCands_closed g f r (path ++ [r]) _ cs1 (by simp; omega) hhead1 hrec
          subst hcl
          simpa [addInt] using hsub _ (List.mem_singleton_self _)
  | cons v q1 ih =>
    intro fuel start path perimeter wq cs hhead hnd hlast hwalk hlen h
    cases fuel with
    | zero => simp [dfsCands] at h
    | succ f =>
      have hndp : path.Nodup := (List.nodup_append.1 hnd).1
      have hv : v ∉ path := by
        intro hv
        exact (List.nodup_append.1 hnd).2.2 hv (List.mem_cons_self _ _)
      simp only [dfsCands] at h
      rw [if_neg] at h
      swap
      · rintro ⟨h1, h2⟩
        exact head_ne_last_of_nodup path start hndp h1 hlast h2
      cases wq with
      | nil => simp [Walk] at hwalk
      | cons w wq1 =>
        simp only [List.cons_append, Walk] at hwalk
        obtain ⟨cs1, hrec, hsub⟩ := candsLoop_sub _ _ _ _ _ h ⟨v, w⟩ hwalk.1
          (Or.inl ((isVisited_eq_false _ _).2 hv))
        have hhead1 : (path ++ [v]).head? = some r := by
          cases path with
          | nil => simp at hhead
          | cons a t => simpa using hhead
        have := ih f v (path ++ [v]) (addInt perimeter w) wq1 cs1 hhead1
          (by simpa using hnd) (by simp) hwalk.2 (by simp at hlen ⊢; omega) hrec
        have := hsub _ this
        rw [wrapInt_addInt] at this
        simpa using this

theorem findCandsFrom_mem (g : Graph) (fuel : Nat) :
    ∀ k i cs, findCandsFrom fuel g k i = some cs → ∀ c ∈ cs,
      ∃ j, i ≤ j ∧ j < i + k ∧
        ∃ cs1, dfsCands fuel g (g.vertices j) [g.vertices j] 0 = some cs1 ∧ c ∈ cs1 := by
  intro k
  induction k with
  | zero => intro i cs h c hc; simp [findCandsFrom] at h; subst h; simp at hc
  | succ k ih =>
    intro i cs h c hc
    simp only [findCandsFrom] at h
    cases hr : dfsCands fuel g (g.vertices i) [g.vertices i] 0 with
    | none => simp [hr] at h
    | some cs1 =>
      cases hl : findCandsFrom fuel g k (i + 1) with
      | none => simp [hr, hl] at h
      | some cs2 =>
        simp [hr, hl] at h
        subst h
        rcases List.mem_append.1 hc with h1 | h2
        · exact ⟨i, le_refl _, by omega, cs1, hr, h1⟩
        · obtain ⟨j, hj1, hj2, cs3, h3, h4⟩ := ih (i + 1) cs2 hl c h2
          exact ⟨j, by omega, by omega, cs3, h3, h4⟩

theorem findCandsFrom_sub (g : Graph) (fuel : Nat) :
    ∀ k i cs, findCandsFrom fuel g k i = some cs → ∀ j, i ≤ j → j < i + k →
      ∃ cs1, dfsCands fuel g (g.vertices j) [g.vertices j] 0 = some cs1 ∧
        ∀ c ∈ cs1, c ∈ cs := by
  intro k
  induction k with
  | zero => intro i cs _ j h1 h2; omega
  | succ k ih =>
    intro i cs h j hj1 hj2
    simp only [findCandsFrom] at h
    cases hr : dfsCands fuel g (g.vertices i) [g.vertices i] 0 with
    | none => simp [hr] at h
    | some cs1 =>
      cases hl : findCandsFrom fuel g k (i + 1) with
      | none => simp [hr, hl] at h
      | some cs2 =>
        simp [hr, hl] at h
        subst h
        by_cases hij : j = i
        · subst hij
          exact ⟨cs1, hr, fun c hc => List.mem_append_left _ hc⟩
        · obtain ⟨cs3, h3, h4⟩ := ih (i + 1) cs2 hl j (by omega) (by omega)
          exact ⟨cs3, h3, fun c hc => List.mem_append_right _ (h4 c hc)⟩

theorem findCands_sound (g : Graph) (fuel : Nat) (cs : List Cand)
    (h : findCands fuel g = some cs) :
    ∀ c ∈ cs, ∃ vs ws, SimpleCycle g vs ws ∧ c = (vs ++ vs.take 1, wrapInt ws.sum) ∧
      ∃ j, j < g.numVertices ∧ vs.head? = some (g.vertices j) := by
  intro c hc
  obtain ⟨j, _, hj, cs1, h1, h2⟩ := findCandsFrom_mem g fuel _ _ cs h c hc
  obtain ⟨vs, ws, h3, h4, h5⟩ := dfsCands_sound g fuel (g.vertices j) [g.vertices j] 0 []
    cs1 (List.nodup_singleton _) (by simp [Walk]) (by decide) (by simp) h1 c h2
  exact ⟨vs, ws, h3, h4, j, by omega, by simpa using h5⟩

theorem findCands_complete (g : Graph) (fuel : Nat) (cs : List Cand)
    (h : findCands fuel g = some cs) (vs : List Char) (ws : List Int)
    (hcyc : SimpleCycle g vs ws)
    (hroot : ∃ j, j < g.numVertices ∧ vs.head? = some (g.vertices j)) :
    (vs ++ vs.take 1, wrapInt ws.sum) ∈ cs := by
  obtain ⟨j, hj, hhead⟩ := hroot
  obtain ⟨cs1, h1, h2⟩ := findCandsFrom_sub g fuel _ _ cs h j (Nat.zero_le _) (by omega)
  obtain ⟨hlen, hnd, hwalk⟩ := hcyc
  cases vs with
  | nil => simp at hlen
  | cons a t =>
    simp at hhead
    subst hhead
    have := dfsCands_complete g (g.vertices j) t fuel (g.vertices j) [g.vertices j] 0 ws cs1
      (by simp) (by simpa using hnd) (by simp) (by simpa using hwalk)
      (by simpa using hlen) h1
    apply h2
    simpa using this

theorem isCycleUnique_eq_false (reg : List Cycle) (nodes : List Char) (len : Nat) (per : Int) :
    isCycleUnique reg nodes len per = false ↔
      ∃ c ∈ reg, c.length = len ∧ c.perimeter = per ∧
        ∀ x ∈ nodes.take len, x ∈ c.nodes.take len := by
  unfold isCycleUnique
  rw [← Bool.not_eq_true, List.all_eq_true]
  simp only [isVisited, Bool.not_eq_eq_eq_not, Bool.not_true, Bool.and_eq_false_imp,
    decide_eq_true_eq, List.all_eq_true, List.any_eq_true, beq_iff_eq, not_forall]
  constructor
  · rintro ⟨c, hc, ⟨h1, h2⟩, h3⟩
    rw [Bool.not_eq_false, List.all_eq_true] at h3
    refine ⟨c, hc, h1, h2, ?_⟩
    intro x hx
    have := h3 x hx
    rw [List.any_eq_true] at this
    obtain ⟨y, hy, hyx⟩ := this
    rw [beq_iff_eq] at hyx
    exact hyx ▸ hy
  · rintro ⟨c, hc, h1, h2, h3⟩
    refine ⟨c, hc, ⟨h1, h2⟩, ?_⟩
    rw [Bool.not_eq_false, List.all_eq_true]
    intro x hx
    rw [List.any_eq_true]
    exact ⟨x, h3 x hx, by simp⟩

theorem isCycleUnique_mono (reg reg1 : List Cycle) (nodes : List Char) (len : Nat) (per : Int)
    (hsub : ∀ c ∈ reg, c ∈ reg1) (h : isCycleUnique reg nodes len per = false) :
    isCycleUnique reg1 nodes len per = false := by
  rw [isCycleUnique_eq_false] at h ⊢
  obtain ⟨c, hc, h1⟩ := h
  exact ⟨c, hsub c hc, h1⟩

theorem registerCycle_sub (reg : List Cycle) (p : List Char) (len : Nat) (per : Int) :
    ∀ c ∈ reg, c ∈ registerCycle reg p len per := by
  intro c hc
  unfold registerCycle
  split
  · exact List.mem_append_left _ hc
  · exact hc

theorem registerCycle_mem (reg : List Cycle) (p : List Char) (len : Nat) (per : Int) :
    ∀ c ∈ registerCycle reg p len per, c ∈ reg ∨ c = ⟨p.take len, len, per⟩ := by
  intro c hc
  unfold registerCycle at hc
  split at hc
  · rcases List.mem_append.1 hc with h | h
    · exact Or.inl h
    · exact Or.inr (by simpa using h)
  · exact Or.inl hc

theorem registerCycle_covers (reg : List Cycle) (p : List Char) (len : Nat) (per : Int) :
    isCycleUnique (registerCycle reg p len per) p len per = false := by
  unfold registerCycle
  split
  · rw [isCycleUnique_eq_false]
    refine ⟨⟨p.take len, len, per⟩, by simp, rfl, rfl, ?_⟩
    intro x hx
    simpa [List.take_take] using hx
  · rename_i h
    simpa using h

theorem registerCycle_absorb (reg : List Cycle) (p : List Char) (len : Nat) (per : Int)
    (h : isCycleUnique reg p len per = false) : registerCycle reg p len per = reg := by
  simp [registerCycle, h]

theorem registerAll_sub : ∀ (cs : List Cand) (reg : List Cycle),
    ∀ c ∈ reg, c ∈ registerAll reg cs := by
  intro cs
  induction cs with
  | nil => intro reg c hc; simpa [registerAll] using hc
  | cons a cs ih =>
    intro reg c hc
    have : registerAll reg (a :: cs) = registerAll (registerCycle reg a.1 a.1.length a.2) cs := rfl
    rw [this]
    exact ih _ c (registerCycle_sub _ _ _ _ c hc)

theorem registerAll_mem : ∀ (cs : List Cand) (reg : List Cycle),
    ∀ c ∈ registerAll reg cs, c ∈ reg ∨ ∃ a ∈ cs, c = ⟨a.1, a.1.length, a.2⟩ := by
  intro cs
  induction cs with
  | nil => intro reg c hc; exact Or.inl (by simpa [registerAll] using hc)
  | cons a cs ih =>
    intro reg c hc
    have : registerAll reg (a :: cs) = registerAll (registerCycle reg a.1 a.1.length a.2) cs := rfl
    rw [this] at hc
    rcases ih _ c hc with h | ⟨b, hb, h⟩
    · rcases registerCycle_mem _ _ _ _ c h with h1 | h1
      · exact Or.inl h1
      · exact Or.inr ⟨a, List.mem_cons_self _ _, by simpa using h1⟩
    · exact Or.inr ⟨b, List.mem_cons_of_mem _ hb, h⟩

theorem registerAll_covers : ∀ (cs : List Cand) (reg : List Cycle),
    ∀ a ∈ cs, isCycleUnique (registerAll reg cs) a.1 a.1.length a.2 = false := by
  intro cs
  induction cs with
  | nil => intro reg a ha; simp at ha
  | cons b cs ih =>
    intro reg a ha
    have : registerAll reg (b :: cs) = registerAll (registerCycle reg b.1 b.1.length b.2) cs := rfl
    rw [this]
    rcases List.mem_cons.1 ha with h | h
    · subst h
      exact isCycleUnique_mono _ _ _ _ _ (registerAll_sub cs _) (registerCycle_covers _ _ _ _)
    · exact ih _ a h

theorem registerAll_absorb : ∀ (cs : List Cand) (reg : List Cycle),
    (∀ a ∈ cs, isCycleUnique reg a.1 a.1.length a.2 = false) → registerAll reg cs = reg := by
  intro cs
  induction cs with
  | nil => intro reg _; rfl
  | cons b cs ih =>
    intro reg h
    have : registerAll reg (b :: cs) = registerAll (registerCycle reg b.1 b.1.length b.2) cs := rfl
    rw [this, registerCycle_absorb _ _ _ _ (h b (List.mem_cons_self _ _))]
    exact ih reg (fun a ha => h a (List.mem_cons_of_mem _ ha))

theorem registerCycle_pairwise (reg : List Cycle) (p : List Char) (len : Nat) (per : Int)
    (h : reg.Pairwise (fun a b => a.triple ≠ b.triple)) :
    (registerCycle reg p len per).Pairwise (fun a b => a.triple ≠ b.triple) := by
  unfold registerCycle
  split
  · rename_i hu
    rw [List.pairwise_append]
    refine ⟨h, List.pairwise_singleton _ _, ?_⟩
    intro a ha b hb heq
    simp at hb
    subst hb
    have hf : isCycleUnique reg p len per = false := by
      rw [isCycleUnique_eq_false]
      simp only [Cycle.triple, Cycle.vertexSet, Prod.mk.injEq] at heq
      refine ⟨a, ha, heq.1, heq.2.1, ?_⟩
      intro x hx
      have hx1 : x ∈ (List.take len (List.take len p)).toFinset := by
        simpa [List.take_take] using hx
      rw [← heq.2.2, heq.1] at hx1
      simpa using hx1
    rw [hf] at hu
    exact absurd hu (by simp)
  · exact h

theorem registerAll_pairwise : ∀ (cs : List Cand) (reg : List Cycle),
    reg.Pairwise (fun a b => a.triple ≠ b.triple) →
    (registerAll reg cs).Pairwise (fun a b => a.triple ≠ b.triple) := by
  intro cs
  induction cs with
  | nil => intro reg h; exact h
  | cons b cs ih =>
    intro reg h
    exact ih _ (registerCycle_pairwise _ _ _ _ h)

/-! ## The run of `findCycles` -/

theorem registerCycle_added (reg : List Cycle) (p : List Char) (len : Nat) (per : Int) :
    ∃ added, registerCycle reg p len per = reg ++ added ∧
      ∀ c ∈ added, c = ⟨p.take len, len, per⟩ := by
  unfold registerCycle
  split
  · exact ⟨[_], rfl, by simp⟩
  · exact ⟨[], by simp, by simp⟩

theorem registerAll_added : ∀ (cs : List Cand) (reg : List Cycle),
    ∃ added, registerAll reg cs = reg ++ added ∧
      ∀ c ∈ added, ∃ a ∈ cs, c = ⟨a.1, a.1.length, a.2⟩ := by
  intro cs
  induction cs with
  | nil => intro reg; exact ⟨[], by simp [registerAll], by simp⟩
  | cons b cs ih =>
    intro reg
    have hstep : registerAll reg (b :: cs)
        = registerAll (registerCycle reg b.1 b.1.length b.2) cs := rfl
    obtain ⟨add1, h1, h2⟩ := registerCycle_added reg b.1 b.1.length b.2
    obtain ⟨add2, h3, h4⟩ := ih (registerCycle reg b.1 b.1.length b.2)
    refine ⟨add1 ++ add2, by rw [hstep, h3, h1, List.append_assoc], ?_⟩
    intro c hc
    rcases List.mem_append.1 hc with h | h
    · exact ⟨b, List.mem_cons_self _ _, by simpa using h2 c h⟩
    · obtain ⟨a, ha, hca⟩ := h4 c h
      exact ⟨a, List.mem_cons_of_mem _ ha, hca⟩

theorem findCycles_run (g : Graph) (k : Nat) (reg0 : List Cycle) :
    ∃ cs, findCands (dfsFuel g + k) g = some cs ∧
      findCycles (dfsFuel g + k) g reg0 = some (registerAll reg0 cs) := by
  obtain ⟨cs, h⟩ := findCands_total g k
  exact ⟨cs, h, by rw [findCycles_eq_cands, h]; rfl⟩

theorem recorded_of_cand (g : Graph) (fuel : Nat) (cs : List Cand)
    (h : findCands fuel g = some cs) (a : Cand) (ha : a ∈ cs) :
    Recorded g ⟨a.1, a.1.length, a.2⟩ := by
  obtain ⟨vs, ws, h1, h2, h3⟩ := findCands_sound g fuel cs h a ha
  refine ⟨vs, ws, h1, h3, ?_⟩
  obtain ⟨hlen, _, _⟩ := h1
  subst h2
  cases vs with
  | nil => simp at hlen
  | cons x t => simp

theorem findCycles_added (g : Graph) (k : Nat) (reg0 : List Cycle) :
    ∃ added, findCycles (dfsFuel g + k) g reg0 = some (reg0 ++ added) ∧
      ∀ c ∈ added, Recorded g c := by
  obtain ⟨cs, h1, h2⟩ := findCycles_run g k reg0
  obtain ⟨added, h3, h4⟩ := registerAll_added cs reg0
  refine ⟨added, by rw [h2, h3], ?_⟩
  intro c hc
  obtain ⟨a, ha, hca⟩ := h4 c hc
  rw [hca]
  exact recorded_of_cand g _ cs h1 a ha

theorem Walk_getElem (g : Graph) : ∀ p ws, Walk g p ws → ∀ i, i < ws.length →
    ∃ u v w, p[i]? = some u ∧ p[i + 1]? = some v ∧ ws[i]? = some w ∧
      (⟨v, w⟩ : Node) ∈ neighbors g u := by
  intro p
  induction p with
  | nil => intro ws h; simp [Walk] at h
  | cons a t ih =>
    intro ws h i hi
    cases t with
    | nil =>
      cases ws with
      | nil => simp at hi
      | cons w ws => simp [Walk] at h
    | cons b rest =>
      cases ws with
      | nil => simp at hi
      | cons w ws =>
        simp only [Walk] at h
        cases i with
        | zero => exact ⟨a, b, w, by simp, by simp, by simp, h.1⟩
        | succ i =>
          obtain ⟨u, v, w1, h1, h2, h3, h4⟩ := ih ws h.2 i (by simpa using hi)
          exact ⟨u, v, w1, by simpa using h1, by simpa using h2, by simpa using h3, h4⟩

theorem Recorded.shape (g : Graph) (c : Cycle) (h : Recorded g c) :
    ∃ r vs ws, 3 ≤ vs.length ∧ vs.Nodup ∧ vs.head? = some r ∧
      c.nodes = vs ++ [r] ∧ c.length = vs.length + 1 ∧ c.perimeter = wrapInt ws.sum ∧
      Walk g (vs ++ [r]) ws := by
  obtain ⟨vs, ws, ⟨hlen, hnd, hwalk⟩, _, hc⟩ := h
  cases vs with
  | nil => simp at hlen
  | cons x t =>
    subst hc
    exact ⟨x, x :: t, ws, hlen, hnd, rfl, by simp, rfl, rfl, by simpa using hwalk⟩

theorem pairwise_triple_getElem (reg : List Cycle)
    (h : reg.Pairwise (fun a b => a.triple ≠ b.triple)) :
    ∀ (i j : Nat) (a b : Cycle), i ≠ j → reg[i]? = some a → reg[j]? = some b →
      ¬ (a.length = b.length ∧ a.perimeter = b.perimeter ∧ a.vertexSet = b.vertexSet) := by
  rw [List.pairwise_iff_getElem] at h
  intro i j a b hij ha hb heq
  obtain ⟨hi, hia⟩ := List.getElem?_eq_some.1 ha
  obtain ⟨hj, hjb⟩ := List.getElem?_eq_some.1 hb
  have ht : a.triple = b.triple := by
    simp only [Cycle.triple, Prod.mk.injEq]
    exact heq
  rcases Nat.lt_or_gt_of_ne hij with hlt | hgt
  · exact h i j hi hj hlt (by rw [hia, hjb]; exact ht)
  · exact h j i hj hi hgt (by rw [hia, hjb]; exact ht.symm)

theorem vertexSet_closed (vs : List Char) (r : Char) (per : Int) (hr : r ∈ vs) :
    Cycle.vertexSet ⟨vs ++ [r], vs.length + 1, per⟩ = vs.toFinset := by
  unfold Cycle.vertexSet
  have : (vs ++ [r]).take (vs.length + 1) = vs ++ [r] := by
    apply List.take_of_length_le
    simp
  simp only [this]
  ext x
  simp only [List.mem_toFinset, List.mem_append, List.mem_singleton]
  constructor
  · rintro (h | h)
    · exact h
    · exact h ▸ hr
  · exact Or.inl

/-- C2 (closure and simplicity): every entry that `findCycles` adds to the
registry, on any graph and from any registry, has `nodes[length - 1]` equal to
`nodes[0]`, its first `length - 1` nodes pairwise distinct, and each
`nodes[i + 1]` with `i < length - 1` in the adjacency list of `nodes[i]`. -/
theorem findCycles_entries_closed_simple (g : Graph) (k : Nat) (reg0 : List Cycle) :
    ∃ added, findCycles (dfsFuel g + k) g reg0 = some (reg0 ++ added) ∧
      ∀ c ∈ added,
        (∃ r, c.nodes[0]? = some r ∧ c.nodes[c.length - 1]? = some r) ∧
        (c.nodes.take (c.length - 1)).Nodup ∧
        ∀ i, i < c.length - 1 →
          ∃ u v, c.nodes[i]? = some u ∧ c.nodes[i + 1]? = some v ∧
            v ∈ (neighbors g u).map Node.vertex := by
  obtain ⟨added, h1, h2⟩ := findCycles_added g k reg0
  refine ⟨added, h1, ?_⟩
  intro c hc
  obtain ⟨r, vs, ws, hlen, hnd, hhead, hnodes, hlength, _, hwalk⟩ :=
    Recorded.shape g c (h2 c hc)
  have hwl := Walk_length g _ _ hwalk
  simp only [List.length_append, List.length_singleton] at hwl
  rw [hnodes, hlength]
  refine ⟨⟨r, ?_, ?_⟩, ?_, ?_⟩
  · cases vs with
    | nil => simp at hlen
    | cons x t => simpa using hhead
  · simp
  · simp [hnd]
  · intro i hi
    obtain ⟨u, v, w, hu, hv, _, hmem⟩ := Walk_getElem g _ _ hwalk i (by simp at hi; omega)
    exact ⟨u, v, hu, hv, List.mem_map.2 ⟨_, hmem, rfl⟩⟩

/-- C4 (no short cycle): every entry that `findCycles` adds to the registry,
on any graph (multi-edges and self-loops included), has a recorded length of
at least 4, so none has length 2 or less. -/
theorem findCycles_length_ge_four (g : Graph) (k : Nat) (reg0 : List Cycle) :
    ∃ added, findCycles (dfsFuel g + k) g reg0 = some (reg0 ++ added) ∧
      ∀ c ∈ added, 4 ≤ c.length ∧ ¬ c.length ≤ 2 := by
  obtain ⟨added, h1, h2⟩ := findCycles_added g k reg0
  refine ⟨added, h1, ?_⟩
  intro c hc
  obtain ⟨r, vs, ws, hlen, _, _, _, hlength, _, _⟩ := Recorded.shape g c (h2 c hc)
  omega

/-- C5 (registry invariant): after `findCycles` has run on any graph from an
empty registry, no two entries at different positions have equal length,
equal perimeter and the same vertex set. -/
theorem findCycles_no_equivalent_entries (g : Graph) (k : Nat) :
    ∃ reg, findCycles (dfsFuel g + k) g [] = some reg ∧
      ∀ (i j : Nat) (a b : Cycle), i ≠ j → reg[i]? = some a → reg[j]? = some b →
        ¬ (a.length = b.length ∧ a.perimeter = b.perimeter ∧ a.vertexSet = b.vertexSet) := by
  obtain ⟨cs, _, h2⟩ := findCycles_run g k []
  exact ⟨_, h2, pairwise_triple_getElem _ (registerAll_pairwise cs [] List.Pairwise.nil)⟩

/-! ## The result does not depend on the fuel -/

theorem candsLoop_mono (rec1 rec2 : Char → List Char → Int → Option (List Cand))
    (hrec : ∀ s p q cs, rec1 s p q = some cs → rec2 s p q = some cs)
    (path : List Char) (perimeter : Int) :
    ∀ adj cs, candsLoop rec1 path perimeter adj = some cs →
      candsLoop rec2 path perimeter adj = some cs := by
  intro adj
  induction adj with
  | nil => intro cs h; simpa [candsLoop] using h
  | cons n rest ih =>
    intro cs h
    simp only [candsLoop] at h ⊢
    split
    · rename_i hcond
      rw [if_pos hcond] at h
      cases hr : rec1 n.vertex (path ++ [n.vertex]) (addInt perimeter n.weight) with
      | none => simp [hr] at h
      | some cs1 =>
        cases hl : candsLoop rec1 path perimeter rest with
        | none => simp [hr, hl] at h
        | some cs2 =>
          simp [hr, hl] at h
          simp [hrec _ _ _ _ hr, ih _ hl, h]
    · rename_i hcond
      rw [if_neg hcond] at h
      exact ih cs h

theorem dfsCands_succ (g : Graph) :
    ∀ fuel start path perimeter cs, dfsCands fuel g start path perimeter = some cs →
      dfsCands (fuel + 1) g start path perimeter = some cs := by
  intro fuel
  induction fuel with
  | zero => intro start path perimeter cs h; simp [dfsCands] at h
  | succ f ih =>
    intro start path perimeter cs h
    rw [dfsCands] at h ⊢
    split
    · rename_i hc; rw [if_pos hc] at h; exact h
    · rename_i hc
      rw [if_neg hc] at h
      exact candsLoop_mono _ _ ih _ _ _ _ h

theorem dfsCands_add (g : Graph) (k : Nat) :
    ∀ fuel start path perimeter cs, dfsCands fuel g start path perimeter = some cs →
      dfsCands (fuel + k) g start path perimeter = some cs := by
  induction k with
  | zero => intro fuel start path perimeter cs h; exact h
  | succ k ih =>
    intro fuel start path perimeter cs h
    exact dfsCands_succ g _ _ _ _ _ (ih _ _ _ _ _ h)

theorem findCandsFrom_add (g : Graph) (fuel k : Nat) :
    ∀ m i cs, findCandsFrom fuel g m i = some cs →
      findCandsFrom (fuel + k) g m i = some cs := by
  intro m
  induction m with
  | zero => intro i cs h; simpa [findCandsFrom] using h
  | succ m ih =>
    intro i cs h
    simp only [findCandsFrom] at h ⊢
    cases hr : dfsCands fuel g (g.vertices i) [g.vertices i] 0 with
    | none => simp [hr] at h
    | some cs1 =>
      cases hl : findCandsFrom fuel g m (i + 1) with
      | none => simp [hr, hl] at h
      | some cs2 =>
        simp [hr, hl] at h
        simp [dfsCands_add g k _ _ _ _ _ hr, ih _ _ hl, h]

theorem findCands_fuel (g : Graph) (k : Nat) :
    findCands (dfsFuel g + k) g = findCands (dfsFuel g) g := by
  obtain ⟨cs, h⟩ := findCands_total g 0
  rw [Nat.add_zero] at h
  rw [h]
  exact findCandsFrom_add g _ k _ _ cs h

theorem findCycles_fuel (g : Graph) (k : Nat) (reg : List Cycle) :
    findCycles (dfsFuel g + k) g reg = findCycles (dfsFuel g) g reg := by
  rw [findCycles_eq_cands, findCycles_eq_cands, findCands_fuel]

theorem registry_has_cycle (g : Graph) (fuel : Nat) (cs : List Cand)
    (h1 : findCands fuel g = some cs) (vs : List Char) (ws : List Int)
    (hcyc : SimpleCycle g vs ws)
    (hroot : ∃ j, j < g.numVertices ∧ vs.head? = some (g.vertices j)) :
    ∃ c ∈ registerAll [] cs, c.length = vs.length + 1 ∧ c.perimeter = wrapInt ws.sum ∧
      c.vertexSet = vs.toFinset := by
  have hlen : 3 ≤ vs.length := hcyc.1
  have hnd : vs.Nodup := hcyc.2.1
  obtain ⟨x, t, hvs⟩ : ∃ x t, vs = x :: t := by
    cases vs with
    | nil => simp at hlen
    | cons x t => exact ⟨x, t, rfl⟩
  have hmem := findCands_complete g _ cs h1 vs ws hcyc hroot
  have hcov := registerAll_covers cs [] _ hmem
  rw [isCycleUnique_eq_false] at hcov
  obtain ⟨c, hc, hcl, hcp, hsub⟩ := hcov
  have hclen : (vs ++ vs.take 1).length = vs.length + 1 := by rw [hvs]; simp
  simp only [hclen] at hcl hsub
  refine ⟨c, hc, hcl, hcp, ?_⟩
  rcases registerAll_mem cs [] c hc with h | ⟨a, ha, hca⟩
  · simp at h
  · have hrec := recorded_of_cand g _ cs h1 a ha
    rw [← hca] at hrec
    obtain ⟨r, vs1, ws1, hlen1, hnd1, hhead1, hnodes, hlength, _, _⟩ := Recorded.shape g c hrec
    have hr : r ∈ vs1 := by
      cases vs1 with
      | nil => simp at hlen1
      | cons y t1 => simp at hhead1; simp [hhead1]
    have hceq : c = ⟨vs1 ++ [r], vs1.length + 1, c.perimeter⟩ := by
      cases c
      simp only at hnodes hlength
      simp [hnodes, hlength]
    have hlen_eq : vs1.length = vs.length := by omega
    have hsubset : vs ⊆ vs1 := by
      intro y hy
      have hy1 : y ∈ List.take (vs.length + 1) (vs ++ List.take 1 vs) := by
        rw [List.take_of_length_le (by rw [hclen])]
        exact List.mem_append_left _ hy
      have hy2 := hsub y hy1
      rw [hnodes] at hy2
      have hy3 : y ∈ vs1 ++ [r] := List.mem_of_mem_take hy2
      rcases List.mem_append.1 hy3 with h | h
      · exact h
      · simp at h; exact h ▸ hr
    have hperm : vs.Perm vs1 :=
      (List.subperm_of_subset hnd hsubset).perm_of_length_le (by omega)
    rw [hceq, vertexSet_closed vs1 r _ hr]
    exact (List.toFinset_eq_of_perm _ _ hperm).symm

/-- C10 (idempotence): a second run of `findCycles` on the same graph, started
from the registry left by the first run, registers nothing: it returns that
registry unchanged, hence with the same multiset of (length, perimeter, vertex
set) triples. -/
theorem findCycles_idempotent (g : Graph) (k1 k2 : Nat) (reg0 : List Cycle) :
    ∃ reg1 reg2, findCycles (dfsFuel g + k1) g reg0 = some reg1 ∧
      findCycles (dfsFuel g + k2) g reg1 = some reg2 ∧ reg2 = reg1 ∧
      Multiset.ofList (reg2.map Cycle.triple) = Multiset.ofList (reg1.map Cycle.triple) := by
  obtain ⟨cs, h1, h2⟩ := findCycles_run g k1 reg0
  obtain ⟨cs2, h3, h4⟩ := findCycles_run g k2 (registerAll reg0 cs)
  have hcs : cs2 = cs := by
    rw [findCands_fuel] at h1 h3
    rw [h1] at h3
    exact (Option.some.inj h3).symm
  subst hcs
  rw [registerAll_absorb _ _ (registerAll_covers cs2 reg0)] at h4
  exact ⟨_, _, h2, h4, rfl, rfl⟩

/-! ## Vertex lookup and `addEdge` -/

theorem scanVertices_found (vertices : Nat → Char) (v : Char) :
    ∀ k i, (∃ j, i ≤ j ∧ j < i + k ∧ vertices j = v) →
      scanVertices vertices v k i < i + k ∧ vertices (scanVertices vertices v k i) = v := by
  intro k
  induction k with
  | zero => rintro i ⟨j, h1, h2, _⟩; omega
  | succ k ih =>
    rintro i ⟨j, h1, h2, h3⟩
    simp only [scanVertices]
    split
    · rename_i h; exact ⟨by omega, h⟩
    · rename_i h
      have hji : j ≠ i := fun e => h (e ▸ h3)
      obtain ⟨h4, h5⟩ := ih (i + 1) ⟨j, by omega, by omega, h3⟩
      exact ⟨by omega, h5⟩

theorem vertexIndex_of_isVertex (g : Graph) (v : Char) (h : IsVertex g v) :
    vertexIndex g v < g.numVertices ∧ g.vertices (vertexIndex g v) = v := by
  obtain ⟨j, hj, hv⟩ := h
  have := scanVertices_found g.vertices v g.numVertices 0 ⟨j, Nat.zero_le _, by omega, hv⟩
  simpa [vertexIndex] using this

theorem vertexIndex_eq_iff (g : Graph) (a s : Char) (ha : IsVertex g a) :
    vertexIndex g s = vertexIndex g a ↔ s = a := by
  constructor
  · intro h
    obtain ⟨h1, h2⟩ := vertexIndex_of_isVertex g a ha
    have hs : IsVertex g s := by
      by_contra hns
      have hle := vertexIndex_le g s
      have : vertexIndex g s < g.numVertices := h ▸ h1
      -- the scan stops below `numVertices` only at a matching label
      have hstop : ∀ k i, scanVertices g.vertices s k i < i + k →
          g.vertices (scanVertices g.vertices s k i) = s := by
        intro k
        induction k with
        | zero => intro i hi; simp [scanVertices] at hi
        | succ k ih =>
          intro i hi
          simp only [scanVertices] at hi ⊢
          split
          · rename_i hh; exact hh
          · rename_i hh
            rw [if_neg hh] at hi
            exact ih (i + 1) (by omega)
      have hv := hstop g.numVertices 0 (by simpa [vertexIndex] using this)
      exact hns ⟨vertexIndex g s, this, hv⟩
    obtain ⟨_, h4⟩ := vertexIndex_of_isVertex g s hs
    rw [← h4, h, h2]
  · intro h; rw [h]

theorem addEdge_numVertices (g : Graph) (u v : Char) (w : Int) :
    (addEdge g u v w).numVertices = g.numVertices := rfl

theorem addEdge_vertices (g : Graph) (u v : Char) (w : Int) :
    (addEdge g u v w).vertices = g.vertices := rfl

theorem addEdge_vertexIndex (g : Graph) (u v : Char) (w : Int) (x : Char) :
    vertexIndex (addEdge g u v w) x = vertexIndex g x := rfl

theorem addEdge_adjList (g : Graph) (u v : Char) (w : Int) (j : Nat) :
    (addEdge g u v w).adjList j =
      if j = vertexIndex g v then
        ⟨u, w⟩ :: (if vertexIndex g v = vertexIndex g u then ⟨v, w⟩ :: g.adjList (vertexIndex g u)
          else g.adjList (vertexIndex g v))
      else if j = vertexIndex g u then ⟨v, w⟩ :: g.adjList (vertexIndex g u)
      else g.adjList j := rfl

theorem mem_of_rotation_or_reflection (vs cand : List Char)
    (hrot : cand.IsRotated vs ∨ cand.IsRotated vs.reverse) : ∀ x, x ∈ cand → x ∈ vs := by
  intro x hx
  rcases hrot with h | h
  · exact h.perm.mem_iff.1 hx
  · exact List.mem_reverse.1 (h.perm.mem_iff.1 hx)

/-- C6 (dedup of rotations and reflections): if the registry holds a cycle
`c` stored as the closed path `vs ++ [vs[0]]` with length `|vs| + 1`, and
`cand` is a rotation of `vs` or of the reversal of `vs`, then the closed path
of `cand`, submitted with the length and perimeter of `c`, is not unique for
`isCycleUnique`, and registering it leaves the registry as it is. -/
theorem isCycleUnique_rotation_reflection (cycles : List Cycle) (c : Cycle)
    (vs cand : List Char) (hc : c ∈ cycles) (hnodes : c.nodes = vs ++ vs.take 1)
    (hlength : c.length = vs.length + 1)
    (hrot : cand.IsRotated vs ∨ cand.IsRotated vs.reverse) :
    isCycleUnique cycles (cand ++ cand.take 1) c.length c.perimeter = false ∧
      registerCycle cycles (cand ++ cand.take 1) c.length c.perimeter = cycles := by
  have hf : isCycleUnique cycles (cand ++ cand.take 1) c.length c.perimeter = false := by
    rw [isCycleUnique_eq_false]
    refine ⟨c, hc, rfl, rfl, ?_⟩
    intro x hx
    have hx1 : x ∈ cand ++ cand.take 1 := List.mem_of_mem_take hx
    have hx2 : x ∈ cand := by
      rcases List.mem_append.1 hx1 with h | h
      · exact h
      · exact List.mem_of_mem_take h
    have hx3 : x ∈ vs := mem_of_rotation_or_reflection vs cand hrot x hx2
    rw [hnodes, hlength, List.take_of_length_le]
    · exact List.mem_append_left _ hx3
    · simp only [List.length_append, List.length_take]
      omega
  exact ⟨hf, registerCycle_absorb _ _ _ _ hf⟩

/-- Witness for C6: stored A-B-C-A, candidate A-C-B-A (the reflection). -/
theorem isCycleUnique_rotation_reflection_witness :
    isCycleUnique [⟨['A', 'B', 'C', 'A'], 4, 6⟩] (['A', 'C', 'B'] ++ ['A', 'C', 'B'].take 1)
        4 6 = false ∧
      registerCycle [⟨['A', 'B', 'C', 'A'], 4, 6⟩] (['A', 'C', 'B'] ++ ['A', 'C', 'B'].take 1)
        4 6 = [⟨['A', 'B', 'C', 'A'], 4, 6⟩] :=
  isCycleUnique_rotation_reflection [⟨['A', 'B', 'C', 'A'], 4, 6⟩] ⟨['A', 'B', 'C', 'A'], 4, 6⟩
    ['A', 'B', 'C'] ['A', 'C', 'B'] (by decide) rfl rfl (Or.inr ⟨1, by decide⟩)

theorem count_cons_node (a x : Node) (l : List Node) :
    (a :: l).count x = l.count x + (if x = a then 1 else 0) := by
  rw [List.count_cons]
  by_cases h : x = a
  · subst h; simp
  · have h1 : ¬ a = x := fun e => h e.symm
    simp [h, h1]

theorem count_addEdge (g : Graph) (u v : Char) (w : Int) (j : Nat) (x : Node) :
    ((addEdge g u v w).adjList j).count x =
      (g.adjList j).count x + (if j = vertexIndex g u ∧ x = ⟨v, w⟩ then 1 else 0)
        + (if j = vertexIndex g v ∧ x = ⟨u, w⟩ then 1 else 0) := by
  rw [addEdge_adjList]
  by_cases h1 : j = vertexIndex g v
  · by_cases h2 : vertexIndex g v = vertexIndex g u
    · have h3 : j = vertexIndex g u := h1.trans h2
      rw [if_pos h1, if_pos h2, count_cons_node, count_cons_node, ← h3]
      simp [h1, h3.symm ▸ h1]
    · have h3 : ¬ j = vertexIndex g u := fun e => h2 (h1.symm.trans e)
      rw [if_pos h1, if_neg h2, count_cons_node, ← h1]
      simp [h3]
  · by_cases h3 : j = vertexIndex g u
    · rw [if_neg h1, if_pos h3, count_cons_node, ← h3]
      simp [h1]
    · simp [h1, h3]

theorem addEdges_cons (g : Graph) (e : Edge) (es : List Edge) :
    addEdges g (e :: es) = addEdges (addEdge g e.start e.«end» e.weight) es := rfl

theorem addEdges_numVertices : ∀ (es : List Edge) (g : Graph),
    (addEdges g es).numVertices = g.numVertices := by
  intro es
  induction es with
  | nil => intro g; rfl
  | cons e es ih => intro g; rw [addEdges_cons, ih]; rfl

theorem addEdges_vertices : ∀ (es : List Edge) (g : Graph),
    (addEdges g es).vertices = g.vertices := by
  intro es
  induction es with
  | nil => intro g; rfl
  | cons e es ih => intro g; rw [addEdges_cons, ih]; rfl

theorem addEdges_vertexIndex (es : List Edge) (g : Graph) (x : Char) :
    vertexIndex (addEdges g es) x = vertexIndex g x := by
  unfold vertexIndex
  rw [addEdges_vertices, addEdges_numVertices]

theorem addEdge_mem_neighbors (g : Graph) (u v : Char) (w : Int) :
    (⟨v, w⟩ : Node) ∈ neighbors (addEdge g u v w) u ∧
      (⟨u, w⟩ : Node) ∈ neighbors (addEdge g u v w) v := by
  unfold neighbors
  rw [addEdge_vertexIndex, addEdge_vertexIndex, addEdge_adjList, addEdge_adjList]
  constructor
  · by_cases h : vertexIndex g u = vertexIndex g v
    · rw [if_pos h, if_pos h.symm]; simp
    · rw [if_neg h, if_pos rfl]; simp
  · rw [if_pos rfl]; simp

theorem addEdges_count_symm (a b : Char) (w : Int) : ∀ (es : List Edge) (g : Graph),
    IsVertex g a → IsVertex g b →
    (g.adjList (vertexIndex g a)).count ⟨b, w⟩ = (g.adjList (vertexIndex g b)).count ⟨a, w⟩ →
    ((addEdges g es).adjList (vertexIndex g a)).count ⟨b, w⟩
      = ((addEdges g es).adjList (vertexIndex g b)).count ⟨a, w⟩ := by
  intro es
  induction es with
  | nil => intro g _ _ h; exact h
  | cons e es ih =>
    intro g ha hb h
    rw [addEdges_cons]
    have key := ih (addEdge g e.start e.«end» e.weight) ha hb
    simp only [addEdge_vertexIndex] at key
    apply key
    rw [count_addEdge, count_addEdge, h]
    have e1 : ∀ s, (vertexIndex g a = vertexIndex g s) ↔ s = a := fun s =>
      ⟨fun e => (vertexIndex_eq_iff g a s ha).1 e.symm, fun e => by rw [e]⟩
    have e2 : ∀ s, (vertexIndex g b = vertexIndex g s) ↔ s = b := fun s =>
      ⟨fun e => (vertexIndex_eq_iff g b s hb).1 e.symm, fun e => by rw [e]⟩
    simp only [e1, e2, Node.mk.injEq]
    have c1 : (e.start = a ∧ b = e.«end» ∧ w = e.weight) ↔
        (e.«end» = b ∧ a = e.start ∧ w = e.weight) := by
      constructor <;> rintro ⟨h1, h2, h3⟩ <;> exact ⟨h2.symm, h1.symm, h3⟩
    have c2 : (e.«end» = a ∧ b = e.start ∧ w = e.weight) ↔
        (e.start = b ∧ a = e.«end» ∧ w = e.weight) := by
      constructor <;> rintro ⟨h1, h2, h3⟩ <;> exact ⟨h2.symm, h1.symm, h3⟩
    simp only [c1, c2]
    omega

/-- C7 (undirectedness): after `addEdge(graph, u, v, w)` the adjacency list of
`u` contains `(v, w)` and that of `v` contains `(u, w)`; and in a graph built
by `addEdge` calls from one whose adjacency lists are empty, for vertices `a`
and `b` of the graph the number of `(b, w1)` cells in the list of `a` equals
the number of `(a, w1)` cells in the list of `b`, so one occurs iff the other
does. -/
theorem addEdge_undirected (g : Graph) (u v : Char) (w : Int)
    (g0 : Graph) (es : List Edge) (a b : Char) (w1 : Int)
    (hempty : ∀ i, i < g0.numVertices → g0.adjList i = [])
    (ha : IsVertex g0 a) (hb : IsVertex g0 b) :
    ((⟨v, w⟩ : Node) ∈ neighbors (addEdge g u v w) u ∧
      (⟨u, w⟩ : Node) ∈ neighbors (addEdge g u v w) v) ∧
    (neighbors (addEdges g0 es) a).count ⟨b, w1⟩
      = (neighbors (addEdges g0 es) b).count ⟨a, w1⟩ ∧
    ((⟨b, w1⟩ : Node) ∈ neighbors (addEdges g0 es) a ↔
      (⟨a, w1⟩ : Node) ∈ neighbors (addEdges g0 es) b) := by
  have hcount : (neighbors (addEdges g0 es) a).count ⟨b, w1⟩
      = (neighbors (addEdges g0 es) b).count ⟨a, w1⟩ := by
    unfold neighbors
    rw [addEdges_vertexIndex, addEdges_vertexIndex]
    apply addEdges_count_symm a b w1 es g0 ha hb
    rw [hempty _ (vertexIndex_of_isVertex g0 a ha).1, hempty _ (vertexIndex_of_isVertex g0 b hb).1]
    rfl
  refine ⟨addEdge_mem_neighbors g u v w, hcount, ?_⟩
  rw [← List.count_pos_iff, ← List.count_pos_iff, hcount]

/-- Witness for C7 on the graph of `main` and the edges of the triangle. -/
theorem addEdge_undirected_witness :
    (∀ i, i < mainGraph.numVertices → mainGraph.adjList i = []) ∧
    IsVertex mainGraph 'A' ∧ IsVertex mainGraph 'B' ∧
    (((⟨'B', 1⟩ : Node) ∈ neighbors (addEdge mainGraph 'A' 'B' 1) 'A' ∧
      (⟨'A', 1⟩ : Node) ∈ neighbors (addEdge mainGraph 'A' 'B' 1) 'B') ∧
    (neighbors (addEdges mainGraph [⟨'A', 'B', 1⟩, ⟨'B', 'C', 2⟩, ⟨'C', 'A', 3⟩]) 'A').count
        ⟨'B', 1⟩
      = (neighbors (addEdges mainGraph [⟨'A', 'B', 1⟩, ⟨'B', 'C', 2⟩, ⟨'C', 'A', 3⟩]) 'B').count
        ⟨'A', 1⟩ ∧
    ((⟨'B', 1⟩ : Node) ∈
        neighbors (addEdges mainGraph [⟨'A', 'B', 1⟩, ⟨'B', 'C', 2⟩, ⟨'C', 'A', 3⟩]) 'A' ↔
      (⟨'A', 1⟩ : Node) ∈
        neighbors (addEdges mainGraph [⟨'A', 'B', 1⟩, ⟨'B', 'C', 2⟩, ⟨'C', 'A', 3⟩]) 'B')) :=
  ⟨by decide, by decide, by decide,
    addEdge_undirected mainGraph 'A' 'B' 1 mainGraph
      [⟨'A', 'B', 1⟩, ⟨'B', 'C', 2⟩, ⟨'C', 'A', 3⟩] 'A' 'B' 1 (by decide) (by decide) (by decide)⟩

/-- C8 (LIFO order and frame): for distinct vertices `u` and `v` of the graph,
after `addEdge(graph, u, v, w)` the adjacency list of `u` is `(v, w)` followed
by its previous contents, that of `v` is `(u, w)` followed by its previous
contents, every other adjacency slot and the adjacency list of every other
label are unchanged, and so are the vertex array and `numVertices`. -/
theorem addEdge_lifo_frame (g : Graph) (u v : Char) (w : Int)
    (hu : IsVertex g u) (hv : IsVertex g v) (huv : u ≠ v) :
    neighbors (addEdge g u v w) u = ⟨v, w⟩ :: neighbors g u ∧
    neighbors (addEdge g u v w) v = ⟨u, w⟩ :: neighbors g v ∧
    (∀ j, j ≠ vertexIndex g u → j ≠ vertexIndex g v →
      (addEdge g u v w).adjList j = g.adjList j) ∧
    (∀ x, x ≠ u → x ≠ v → neighbors (addEdge g u v w) x = neighbors g x) ∧
    (addEdge g u v w).vertices = g.vertices ∧
    (addEdge g u v w).numVertices = g.numVertices := by
  have hne : vertexIndex g u ≠ vertexIndex g v := fun e =>
    huv ((vertexIndex_eq_iff g v u hv).1 e)
  have hframe : ∀ j, j ≠ vertexIndex g u → j ≠ vertexIndex g v →
      (addEdge g u v w).adjList j = g.adjList j := by
    intro j h1 h2
    rw [addEdge_adjList, if_neg h2, if_neg h1]
  refine ⟨?_, ?_, hframe, ?_, rfl, rfl⟩
  · unfold neighbors
    rw [addEdge_vertexIndex, addEdge_adjList, if_neg hne, if_pos rfl]
  · unfold neighbors
    rw [addEdge_vertexIndex, addEdge_adjList, if_pos rfl, if_neg (Ne.symm hne)]
  · intro x hxu hxv
    unfold neighbors
    rw [addEdge_vertexIndex]
    exact hframe _ (fun e => hxu ((vertexIndex_eq_iff g u x hu).1 e))
      (fun e => hxv ((vertexIndex_eq_iff g v x hv).1 e))

/-- Witness for C8 on the graph of `main` with the edge A-B(1). -/
theorem addEdge_lifo_frame_witness :
    IsVertex mainGraph 'A' ∧ IsVertex mainGraph 'B' ∧ 'A' ≠ 'B' ∧
    (neighbors (addEdge mainGraph 'A' 'B' 1) 'A' = ⟨'B', 1⟩ :: neighbors mainGraph 'A' ∧
    neighbors (addEdge mainGraph 'A' 'B' 1) 'B' = ⟨'A', 1⟩ :: neighbors mainGraph 'B' ∧
    (∀ j, j ≠ vertexIndex mainGraph 'A' → j ≠ vertexIndex mainGraph 'B' →
      (addEdge mainGraph 'A' 'B' 1).adjList j = mainGraph.adjList j) ∧
    (∀ x, x ≠ 'A' → x ≠ 'B' →
      neighbors (addEdge mainGraph 'A' 'B' 1) x = neighbors mainGraph x) ∧
    (addEdge mainGraph 'A' 'B' 1).vertices = mainGraph.vertices ∧
    (addEdge mainGraph 'A' 'B' 1).numVertices = mainGraph.numVertices) :=
  ⟨by decide, by decide, by decide,
    addEdge_lifo_frame mainGraph 'A' 'B' 1 (by decide) (by decide) (by decide)⟩

/-! ## Independence of the order of the edges -/

theorem mem_addEdge_adjList (g : Graph) (u v : Char) (w : Int) (j : Nat) (x : Node) :
    x ∈ (addEdge g u v w).adjList j ↔
      x ∈ g.adjList j ∨ (j = vertexIndex g u ∧ x = ⟨v, w⟩) ∨
        (j = vertexIndex g v ∧ x = ⟨u, w⟩) := by
  rw [← List.count_pos_iff, count_addEdge, ← List.count_pos_iff]
  by_cases h1 : j = vertexIndex g u ∧ x = ⟨v, w⟩ <;>
    by_cases h2 : j = vertexIndex g v ∧ x = ⟨u, w⟩ <;> simp [h1, h2]

theorem mem_addEdges_adjList (j : Nat) (x : Node) : ∀ (es : List Edge) (g : Graph),
    x ∈ (addEdges g es).adjList j ↔
      x ∈ g.adjList j ∨ ∃ e ∈ es, (j = vertexIndex g e.start ∧ x = ⟨e.«end», e.weight⟩) ∨
        (j = vertexIndex g e.«end» ∧ x = ⟨e.start, e.weight⟩) := by
  intro es
  induction es with
  | nil => intro g; simp [addEdges]
  | cons e es ih =>
    intro g
    rw [addEdges_cons, ih, mem_addEdge_adjList]
    simp only [addEdge_vertexIndex, List.mem_cons, exists_eq_or_imp]
    constructor
    · rintro ((h | h | h) | h)
      · exact Or.inl h
      · exact Or.inr (Or.inl (Or.inl h))
      · exact Or.inr (Or.inl (Or.inr h))
      · exact Or.inr (Or.inr h)
    · rintro (h | (h | h) | h)
      · exact Or.inl (Or.inl h)
      · exact Or.inl (Or.inr (Or.inl h))
      · exact Or.inl (Or.inr (Or.inr h))
      · exact Or.inr h

theorem exists_mem_forall₂ (P : Edge → Prop) (R : Edge → Edge → Prop)
    (hR : ∀ a b, R a b → (P a ↔ P b)) :
    ∀ es1 es, List.Forall₂ R es1 es → ((∃ e ∈ es1, P e) ↔ (∃ e ∈ es, P e)) := by
  intro es1 es h
  induction h with
  | nil => simp
  | cons hab _ ih =>
    simp only [List.mem_cons, exists_eq_or_imp]
    rw [hR _ _ hab, ih]

theorem sameEdges_adjList (g : Graph) (es1 es2 : List Edge) (h : SameEdges es1 es2)
    (j : Nat) (x : Node) :
    x ∈ (addEdges g es1).adjList j ↔ x ∈ (addEdges g es2).adjList j := by
  obtain ⟨es, hswap, hperm⟩ := h
  rw [mem_addEdges_adjList, mem_addEdges_adjList]
  apply or_congr Iff.rfl
  rw [exists_mem_forall₂ _ _ _ es1 es hswap]
  · constructor
    · rintro ⟨e, he, h⟩; exact ⟨e, hperm.mem_iff.1 he, h⟩
    · rintro ⟨e, he, h⟩; exact ⟨e, hperm.mem_iff.2 he, h⟩
  · rintro a b (hab | hab)
    · rw [hab]
    · rw [hab]
      simp only [Edge.swap]
      tauto

theorem Walk_congr (g1 g2 : Graph)
    (h : ∀ u x, x ∈ neighbors g1 u → x ∈ neighbors g2 u) :
    ∀ p ws, Walk g1 p ws → Walk g2 p ws := by
  intro p
  induction p with
  | nil => intro ws hw; simp [Walk] at hw
  | cons a t ih =>
    intro ws hw
    cases t with
    | nil =>
      cases ws with
      | nil => trivial
      | cons w ws => simp [Walk] at hw
    | cons b rest =>
      cases ws with
      | nil => simp [Walk] at hw
      | cons w ws =>
        simp only [Walk] at hw ⊢
        exact ⟨h _ _ hw.1, ih ws hw.2⟩

theorem triples_subset (g1 g2 : Graph) (f1 f2 : Nat) (cs1 cs2 : List Cand)
    (h1 : findCands f1 g1 = some cs1) (h2 : findCands f2 g2 = some cs2)
    (hn : g1.numVertices = g2.numVertices) (hv : g1.vertices = g2.vertices)
    (hadj : ∀ j x, x ∈ g1.adjList j → x ∈ g2.adjList j) :
    ∀ c1 ∈ registerAll [] cs1, ∃ c2 ∈ registerAll [] cs2, c2.triple = c1.triple := by
  intro c1 hc1
  rcases registerAll_mem cs1 [] c1 hc1 with h | ⟨a, ha, hca⟩
  · simp at h
  · have hrec := recorded_of_cand g1 _ cs1 h1 a ha
    rw [← hca] at hrec
    obtain ⟨vs, ws, hcyc, ⟨j, hj, hhead⟩, hc⟩ := hrec
    have hidx : ∀ u, vertexIndex g1 u = vertexIndex g2 u := by
      intro u; unfold vertexIndex; rw [hn, hv]
    have hcyc2 : SimpleCycle g2 vs ws := by
      refine ⟨hcyc.1, hcyc.2.1, Walk_congr g1 g2 ?_ _ _ hcyc.2.2⟩
      intro u x hx
      unfold neighbors at hx ⊢
      rw [← hidx]
      exact hadj _ _ hx
    obtain ⟨c2, hc2, hl, hp, hs⟩ := registry_has_cycle g2 f2 cs2 h2 vs ws hcyc2
      ⟨j, hn ▸ hj, by rw [← hv]; exact hhead⟩
    refine ⟨c2, hc2, ?_⟩
    have hlen : 3 ≤ vs.length := hcyc.1
    cases vs with
    | nil => simp at hlen
    | cons y t =>
      have hvs : c1.vertexSet = (y :: t).toFinset := by
        rw [hc]
        exact vertexSet_closed (y :: t) y _ (List.mem_cons_self _ _)
      simp only [Cycle.triple, Prod.mk.injEq]
      refine ⟨by rw [hl, hc], by rw [hp, hc], by rw [hs, hvs]⟩

/-- C9 (edge-order independence): for every starting graph (any vertex array)
and every two edge sequences of which one is the other in another order, some
edges with their endpoints exchanged, `findCycles` from an empty registry
leaves, on the two graphs built by `addEdge`, registries with the same set of
(length, perimeter, vertex set) triples. -/
theorem findCycles_edge_order_independent (g0 : Graph) (es1 es2 : List Edge)
    (h : SameEdges es1 es2) (k1 k2 : Nat) :
    ∃ reg1 reg2,
      findCycles (dfsFuel (addEdges g0 es1) + k1) (addEdges g0 es1) [] = some reg1 ∧
      findCycles (dfsFuel (addEdges g0 es2) + k2) (addEdges g0 es2) [] = some reg2 ∧
      (reg1.map Cycle.triple).toFinset = (reg2.map Cycle.triple).toFinset := by
  obtain ⟨cs1, h1, h2⟩ := findCycles_run (addEdges g0 es1) k1 []
  obtain ⟨cs2, h3, h4⟩ := findCycles_run (addEdges g0 es2) k2 []
  refine ⟨_, _, h2, h4, ?_⟩
  have hn : (addEdges g0 es1).numVertices = (addEdges g0 es2).numVertices := by
    rw [addEdges_numVertices, addEdges_numVertices]
  have hv : (addEdges g0 es1).vertices = (addEdges g0 es2).vertices := by
    rw [addEdges_vertices, addEdges_vertices]
  have hadj := sameEdges_adjList g0 es1 es2 h
  ext t
  simp only [List.mem_toFinset, List.mem_map]
  constructor
  · rintro ⟨c1, hc1, rfl⟩
    obtain ⟨c2, hc2, ht⟩ := triples_subset _ _ _ _ cs1 cs2 h1 h3 hn hv
      (fun j x => (hadj j x).1) c1 hc1
    exact ⟨c2, hc2, ht⟩
  · rintro ⟨c2, hc2, rfl⟩
    obtain ⟨c1, hc1, ht⟩ := triples_subset _ _ _ _ cs2 cs1 h3 h1 hn.symm hv.symm
      (fun j x => (hadj j x).2) c2 hc2
    exact ⟨c1, hc1, ht⟩

/-- Witness for C9: the triangle read as A-B, B-C, C-A and as A-C, B-A, C-B. -/
theorem findCycles_edge_order_independent_witness :
    SameEdges [⟨'A', 'B', 1⟩, ⟨'B', 'C', 2⟩, ⟨'C', 'A', 3⟩]
        [⟨'A', 'C', 3⟩, ⟨'B', 'A', 1⟩, ⟨'C', 'B', 2⟩] ∧
    ∃ reg1 reg2,
      findCycles (dfsFuel (addEdges mainGraph [⟨'A', 'B', 1⟩, ⟨'B', 'C', 2⟩, ⟨'C', 'A', 3⟩]) + 0)
        (addEdges mainGraph [⟨'A', 'B', 1⟩, ⟨'B', 'C', 2⟩, ⟨'C', 'A', 3⟩]) [] = some reg1 ∧
      findCycles (dfsFuel (addEdges mainGraph [⟨'A', 'C', 3⟩, ⟨'B', 'A', 1⟩, ⟨'C', 'B', 2⟩]) + 0)
        (addEdges mainGraph [⟨'A', 'C', 3⟩, ⟨'B', 'A', 1⟩, ⟨'C', 'B', 2⟩]) [] = some reg2 ∧
      (reg1.map Cycle.triple).toFinset = (reg2.map Cycle.triple).toFinset :=
  have hs : SameEdges [⟨'A', 'B', 1⟩, ⟨'B', 'C', 2⟩, ⟨'C', 'A', 3⟩]
      [⟨'A', 'C', 3⟩, ⟨'B', 'A', 1⟩, ⟨'C', 'B', 2⟩] :=
    ⟨[⟨'B', 'A', 1⟩, ⟨'C', 'B', 2⟩, ⟨'A', 'C', 3⟩],
      List.Forall₂.cons (Or.inr rfl) (List.Forall₂.cons (Or.inr rfl)
        (List.Forall₂.cons (Or.inr rfl) List.Forall₂.nil)),
      by decide⟩
  ⟨hs, findCycles_edge_order_independent mainGraph _ _ hs 0 0⟩

/-! ## Scenarios -/

theorem triangle_registry :
    findCycles (dfsFuel triangle) triangle [] = some [⟨['A', 'C', 'B', 'A'], 4, 6⟩] := by
  decide

/-- C11 (scenario 1): on the 7-vertex graph A..G with the edges A-B(1),
B-C(2), C-A(3) added in this order, `findCycles` from an empty registry leaves
exactly one entry, of length 4, perimeter 6 and vertex set {A, B, C}. -/
theorem findCycles_triangle (k : Nat) :
    mainGraph.numVertices = 7 ∧
    ∃ c, findCycles (dfsFuel triangle + k) triangle [] = some [c] ∧
      c.length = 4 ∧ c.perimeter = 6 ∧ c.vertexSet = {'A', 'B', 'C'} := by
  refine ⟨rfl, ⟨['A', 'C', 'B', 'A'], 4, 6⟩, ?_, rfl, rfl, by decide⟩
  rw [findCycles_fuel, triangle_registry]

theorem squareChord_registry :
    findCycles (dfsFuel squareChord) squareChord [] =
      some [⟨['A', 'C', 'D', 'A'], 4, 3⟩, ⟨['A', 'C', 'B', 'A'], 4, 3⟩,
        ⟨['A', 'D', 'C', 'B', 'A'], 5, 4⟩] := by
  decide

/-- C12, as stated, fails: on the 4-cycle with chord the registry left by
`findCycles` does not have exactly two entries. -/
theorem findCycles_squareChord_not_two :
    ¬ ∃ reg, findCycles (dfsFuel squareChord) squareChord [] = some reg ∧ reg.length = 2 := by
  rintro ⟨reg, h, hlen⟩
  rw [squareChord_registry] at h
  cases h
  simp at hlen

/-- C12 (scenario 3, amended): on the graph with the edges A-B(1), B-C(1),
C-D(1), D-A(1) and the chord A-C(1), `findCycles` from an empty registry leaves
exactly three entries: the outer 4-vertex cycle, of length 5 and perimeter 4,
and both triangles formed by the chord, each of length 4 and perimeter 3, with
vertex sets {A, C, D} and {A, B, C}. -/
theorem findCycles_squareChord (k : Nat) :
    ∃ t1 t2 q, findCycles (dfsFuel squareChord + k) squareChord [] = some [t1, t2, q] ∧
      (t1.length = 4 ∧ t1.perimeter = 3 ∧ t1.vertexSet = {'A', 'C', 'D'}) ∧
      (t2.length = 4 ∧ t2.perimeter = 3 ∧ t2.vertexSet = {'A', 'B', 'C'}) ∧
      (q.length = 5 ∧ q.perimeter = 4 ∧ q.vertexSet = {'A', 'B', 'C', 'D'}) := by
  refine ⟨⟨['A', 'C', 'D', 'A'], 4, 3⟩, ⟨['A', 'C', 'B', 'A'], 4, 3⟩,
    ⟨['A', 'D', 'C', 'B', 'A'], 5, 4⟩, ?_, ⟨rfl, rfl, by decide⟩, ⟨rfl, rfl, by decide⟩,
    ⟨rfl, rfl, by decide⟩⟩
  rw [findCycles_fuel, squareChord_registry]

theorem isCycleUnique_eq_true (reg : List Cycle) (nodes : List Char) (len : Nat) (per : Int) :
    isCycleUnique reg nodes len per = true ↔
      ¬ ∃ c ∈ reg, c.length = len ∧ c.perimeter = per ∧
        ∀ x ∈ nodes.take len, x ∈ c.nodes.take len := by
  rw [← isCycleUnique_eq_false]
  simp

/-- C14, as stated, fails: with A-B-C-A stored, the candidate A-A-A-A of the
same length and perimeter is reported as a duplicate, although the stored
vertices B and C do not occur in the candidate. -/
theorem isCycleUnique_not_stored_in_candidate :
    ¬ (isCycleUnique [⟨['A', 'B', 'C', 'A'], 4, 3⟩] ['A', 'A', 'A', 'A'] 4 3 = false ↔
      ∃ c ∈ [(⟨['A', 'B', 'C', 'A'], 4, 3⟩ : Cycle)], c.length = 4 ∧ c.perimeter = 3 ∧
        ∀ x ∈ c.nodes.take 4, x ∈ ['A', 'A', 'A', 'A'].take 4) := by
  decide

/-- C14 (identity rule, amended): for every registry and every candidate
(nodes, length, perimeter), `isCycleUnique` returns 0 if and only if some
stored cycle has equal length, equal perimeter, and every vertex in the
candidate's first `length` positions occurs among that stored cycle's first
`length` nodes. -/
theorem isCycleUnique_identity_rule (cycles : List Cycle) (nodes : List Char) (length : Nat)
    (perimeter : Int) :
    isCycleUnique cycles nodes length perimeter = false ↔
      ∃ c ∈ cycles, c.length = length ∧ c.perimeter = perimeter ∧
        ∀ x ∈ nodes.take length, x ∈ c.nodes.take length :=
  isCycleUnique_eq_false cycles nodes length perimeter

/-! ## Graphs with at most one edge -/

theorem no_simple_cycle_registry (g : Graph) (k : Nat)
    (hno : ∀ vs ws, SimpleCycle g vs ws →
      (∃ j, j < g.numVertices ∧ vs.head? = some (g.vertices j)) → False) :
    findCycles (dfsFuel g + k) g [] = some [] := by
  obtain ⟨added, h1, h2⟩ := findCycles_added g k []
  rw [h1]
  cases added with
  | nil => rfl
  | cons c rest =>
    exfalso
    obtain ⟨vs, ws, hcyc, hroot, _⟩ := h2 c (List.mem_cons_self _ _)
    exact hno vs ws hcyc hroot

theorem no_simple_cycle_of_empty (g : Graph)
    (hempty : ∀ i, i < g.numVertices → g.adjList i = []) :
    ∀ vs ws, SimpleCycle g vs ws →
      (∃ j, j < g.numVertices ∧ vs.head? = some (g.vertices j)) → False := by
  rintro vs ws ⟨hlen, _, hwalk⟩ ⟨j, hj, hhead⟩
  cases vs with
  | nil => simp at hlen
  | cons v0 t =>
    cases t with
    | nil => simp at hlen
    | cons v1 t1 =>
      cases ws with
      | nil => simp [Walk] at hwalk
      | cons w0 ws1 =>
        simp only [List.cons_append, Walk] at hwalk
        have hv0 : IsVertex g v0 := ⟨j, hj, by simpa using hhead.symm⟩
        have := hwalk.1
        unfold neighbors at this
        rw [hempty _ (vertexIndex_of_isVertex g v0 hv0).1] at this
        simp at this

theorem no_simple_cycle_of_one_edge (g0 : Graph) (u v : Char) (w : Int)
    (hempty : ∀ i, i < g0.numVertices → g0.adjList i = [])
    (hu : IsVertex g0 u) (hv : IsVertex g0 v) :
    ∀ vs ws, SimpleCycle (addEdge g0 u v w) vs ws →
      (∃ j, j < (addEdge g0 u v w).numVertices ∧
        vs.head? = some ((addEdge g0 u v w).vertices j)) → False := by
  rintro vs ws ⟨hlen, hnd, hwalk⟩ ⟨j, hj, hhead⟩
  -- a cell of a vertex of the graph joins `u` and `v`
  have hcell : ∀ a b wt, IsVertex g0 a → (⟨b, wt⟩ : Node) ∈ neighbors (addEdge g0 u v w) a →
      (a = u ∧ b = v) ∨ (a = v ∧ b = u) := by
    intro a b wt ha hmem
    unfold neighbors at hmem
    rw [addEdge_vertexIndex, mem_addEdge_adjList,
      hempty _ (vertexIndex_of_isVertex g0 a ha).1] at hmem
    rcases hmem with h | ⟨h1, h2⟩ | ⟨h1, h2⟩
    · simp at h
    · exact Or.inl ⟨(vertexIndex_eq_iff g0 u a hu).1 h1, (Node.mk.inj h2).1⟩
    · exact Or.inr ⟨(vertexIndex_eq_iff g0 v a hv).1 h1, (Node.mk.inj h2).1⟩
  cases vs with
  | nil => simp at hlen
  | cons v0 t =>
    cases t with
    | nil => simp at hlen
    | cons v1 t1 =>
      cases t1 with
      | nil => simp at hlen
      | cons v2 t2 =>
        cases ws with
        | nil => simp [Walk] at hwalk
        | cons w0 ws1 =>
          cases ws1 with
          | nil => simp [Walk] at hwalk
          | cons w1 ws2 =>
            simp only [List.cons_append, Walk] at hwalk
            have hv0 : IsVertex g0 v0 := ⟨j, hj, by simpa using hhead.symm⟩
            have h01 := hcell v0 v1 w0 hv0 hwalk.1
            have hv1 : IsVertex g0 v1 := by
              rcases h01 with ⟨_, h⟩ | ⟨_, h⟩
              · exact h ▸ hv
              · exact h ▸ hu
            have h12 := hcell v1 v2 w1 hv1 hwalk.2.1
            simp only [List.nodup_cons, List.mem_cons, not_or] at hnd
            obtain ⟨⟨h01n, h02n, _⟩, ⟨h12n, _⟩, _⟩ := hnd
            rcases h01 with ⟨a1, a2⟩ | ⟨a1, a2⟩ <;> rcases h12 with ⟨b1, b2⟩ | ⟨b1, b2⟩
            · exact h12n (a2.trans b2.symm)
            · exact h02n (a1.trans b2.symm)
            · exact h02n (a1.trans b2.symm)
            · exact h12n (a2.trans b2.symm)

/-- C13 (scenarios 2 and 4): for every vertex array, `findCycles` from an
empty registry registers nothing on the graph without edges, and nothing on
the graph with the single edge `(u, v, w)`, for any vertices `u`, `v` of the
graph and any weight `w`. -/
theorem findCycles_no_cycle (g0 : Graph) (u v : Char) (w : Int) (k : Nat)
    (hempty : ∀ i, i < g0.numVertices → g0.adjList i = [])
    (hu : IsVertex g0 u) (hv : IsVertex g0 v) :
    findCycles (dfsFuel g0 + k) g0 [] = some [] ∧
    findCycles (dfsFuel (addEdge g0 u v w) + k) (addEdge g0 u v w) [] = some [] :=
  ⟨no_simple_cycle_registry g0 k (no_simple_cycle_of_empty g0 hempty),
    no_simple_cycle_registry _ k (no_simple_cycle_of_one_edge g0 u v w hempty hu hv)⟩

/-- Witness for C13: the graph of `main` without edges and with A-B(5). -/
theorem findCycles_no_cycle_witness :
    (∀ i, i < mainGraph.numVertices → mainGraph.adjList i = []) ∧
    IsVertex mainGraph 'A' ∧ IsVertex mainGraph 'B' ∧
    findCycles (dfsFuel mainGraph + 0) mainGraph [] = some [] ∧
    findCycles (dfsFuel (addEdge mainGraph 'A' 'B' 5) + 0) (addEdge mainGraph 'A' 'B' 5) []
      = some [] :=
  ⟨by decide, by decide, by decide,
    findCycles_no_cycle mainGraph 'A' 'B' 5 0 (by decide) (by decide) (by decide)⟩

/-! ## Unknown labels -/

theorem scanVertices_stop (vertices : Nat → Char) (v : Char) :
    ∀ k i, scanVertices vertices v k i < i + k →
      vertices (scanVertices vertices v k i) = v := by
  intro k
  induction k with
  | zero => intro i hi; simp [scanVertices] at hi
  | succ k ih =>
    intro i hi
    simp only [scanVertices] at hi ⊢
    split
    · rename_i hh; exact hh
    · rename_i hh
      rw [if_neg hh] at hi
      exact ih (i + 1) (by omega)

theorem isVertex_of_vertexIndex_lt (g : Graph) (v : Char)
    (h : vertexIndex g v < g.numVertices) : IsVertex g v :=
  ⟨vertexIndex g v, h, scanVertices_stop g.vertices v g.numVertices 0 (by simpa [vertexIndex] using h)⟩

theorem vertexIndex_of_not_isVertex (g : Graph) (v : Char) (h : ¬ IsVertex g v) :
    vertexIndex g v = g.numVertices := by
  have h1 := vertexIndex_le g v
  by_contra hne
  exact h (isVertex_of_vertexIndex_lt g v (by omega))

theorem vertexIndex_ne_of_unknown (g : Graph) (u x : Char) (hu : ¬ IsVertex g u)
    (hx : IsVertex g x) : vertexIndex g x ≠ vertexIndex g u := by
  rw [vertexIndex_of_not_isVertex g u hu]
  exact Nat.ne_of_lt (vertexIndex_of_isVertex g x hx).1

/-- C15, as stated, fails: `addEdge` with the unknown endpoint Z does not stop
at the lookup (which ends with `i = numVertices`) and changes the adjacency
list of the known vertex A. -/
theorem addEdge_unknown_changes_known :
    ¬ IsVertex mainGraph 'Z' ∧ IsVertex mainGraph 'A' ∧
    vertexIndex mainGraph 'Z' = mainGraph.numVertices ∧
    neighbors (addEdge mainGraph 'Z' 'A' 1) 'A' = [⟨'Z', 1⟩] ∧
    neighbors (addEdge mainGraph 'Z' 'A' 1) 'A' ≠ neighbors mainGraph 'A' := by
  decide

/-- C15 (unknown vertex, amended): when `addEdge` is given an endpoint `u`
that is not in the vertex array, the lookup reports no error and ends with
`i = numVertices`; the cell naming `u` is still prepended to the adjacency
list of the other endpoint `v` when `v` is known, whichever of the two
arguments is the unknown one, and the adjacency lists of all other known
vertices are unchanged; with two unknown endpoints no adjacency list of a
known vertex changes. -/
theorem addEdge_unknown_endpoint (g : Graph) (u u1 v : Char) (w : Int)
    (hu : ¬ IsVertex g u) (hu1 : ¬ IsVertex g u1) (hv : IsVertex g v) :
    vertexIndex g u = g.numVertices ∧
    (neighbors (addEdge g u v w) v = ⟨u, w⟩ :: neighbors g v ∧
      ∀ x, IsVertex g x → x ≠ v → neighbors (addEdge g u v w) x = neighbors g x) ∧
    (neighbors (addEdge g v u w) v = ⟨u, w⟩ :: neighbors g v ∧
      ∀ x, IsVertex g x → x ≠ v → neighbors (addEdge g v u w) x = neighbors g x) ∧
    (∀ x, IsVertex g x → neighbors (addEdge g u u1 w) x = neighbors g x) := by
  have hvu : vertexIndex g v ≠ vertexIndex g u := vertexIndex_ne_of_unknown g u v hu hv
  refine ⟨vertexIndex_of_not_isVertex g u hu, ⟨?_, ?_⟩, ⟨?_, ?_⟩, ?_⟩
  · unfold neighbors
    rw [addEdge_vertexIndex, addEdge_adjList, if_pos rfl, if_neg hvu]
  · intro x hx hxv
    unfold neighbors
    rw [addEdge_vertexIndex, addEdge_adjList,
      if_neg (fun e => hxv ((vertexIndex_eq_iff g v x hv).1 e)),
      if_neg (vertexIndex_ne_of_unknown g u x hu hx)]
  · unfold neighbors
    rw [addEdge_vertexIndex, addEdge_adjList, if_neg hvu, if_pos rfl]
  · intro x hx hxv
    unfold neighbors
    rw [addEdge_vertexIndex, addEdge_adjList,
      if_neg (vertexIndex_ne_of_unknown g u x hu hx),
      if_neg (fun e => hxv ((vertexIndex_eq_iff g v x hv).1 e))]
  · intro x hx
    unfold neighbors
    rw [addEdge_vertexIndex, addEdge_adjList,
      if_neg (vertexIndex_ne_of_unknown g u1 x hu1 hx),
      if_neg (vertexIndex_ne_of_unknown g u x hu hx)]

/-- Witness for C15 on the graph of `main` with the unknown labels Z and Y. -/
theorem addEdge_unknown_endpoint_witness :
    ¬ IsVertex mainGraph 'Z' ∧ ¬ IsVertex mainGraph 'Y' ∧ IsVertex mainGraph 'A' ∧
    (vertexIndex mainGraph 'Z' = mainGraph.numVertices ∧
    (neighbors (addEdge mainGraph 'Z' 'A' 1) 'A' = ⟨'Z', 1⟩ :: neighbors mainGraph 'A' ∧
      ∀ x, IsVertex mainGraph x → x ≠ 'A' →
        neighbors (addEdge mainGraph 'Z' 'A' 1) x = neighbors mainGraph x) ∧
    (neighbors (addEdge mainGraph 'A' 'Z' 1) 'A' = ⟨'Z', 1⟩ :: neighbors mainGraph 'A' ∧
      ∀ x, IsVertex mainGraph x → x ≠ 'A' →
        neighbors (addEdge mainGraph 'A' 'Z' 1) x = neighbors mainGraph x) ∧
    (∀ x, IsVertex mainGraph x →
      neighbors (addEdge mainGraph 'Z' 'Y' 1) x = neighbors mainGraph x)) :=
  ⟨by decide, by decide, by decide,
    addEdge_unknown_endpoint mainGraph 'Z' 'Y' 'A' 1 (by decide) (by decide) (by decide)⟩

/-! ## Termination and the bound on the path -/

theorem closedSimple_card (nodes : List Char) (L : Nat) (h : IsClosedSimple nodes L) :
    (nodes.take L).toFinset.card = if L ≤ 1 then L else L - 1 := by
  obtain ⟨hlen, hnd, hclose⟩ := h
  rcases Nat.lt_or_ge 1 L with hL | hL
  · rw [if_neg (by omega)]
    obtain ⟨m, rfl⟩ : ∃ m, L = m + 1 := ⟨L - 1, by omega⟩
    simp only [Nat.add_sub_cancel] at hnd hclose
    have hm : m < nodes.length := by omega
    have h0 : 0 < nodes.length := by omega
    have hmem : nodes[m] ∈ nodes.take m := by
      have e1 : nodes[m]? = some nodes[m] := List.getElem?_eq_getElem hm
      have e2 : nodes[0]? = some nodes[0] := List.getElem?_eq_getElem h0
      rw [e1, e2] at hclose
      rw [Option.some.inj hclose]
      rw [List.mem_take_iff_getElem]
      exact ⟨0, by simp; omega, rfl⟩
    have hset : (nodes.take (m + 1)).toFinset = (nodes.take m).toFinset := by
      rw [List.take_succ, List.getElem?_eq_getElem hm]
      ext x
      simp only [Option.toList_some, List.toFinset_append, List.toFinset_cons,
        List.toFinset_nil, Finset.mem_union, List.mem_toFinset, Finset.mem_insert,
        Finset.not_mem_empty, or_false]
      constructor
      · rintro (h | h)
        · exact h
        · exact h ▸ hmem
      · exact Or.inl
    rw [hset, List.toFinset_card_of_nodup hnd, List.length_take]
    simp only [Nat.add_sub_cancel]
    omega
  · rw [if_pos hL]
    rcases Nat.eq_zero_or_pos L with h0 | h0
    · subst h0; simp
    · have h1 : L = 1 := by omega
      subst h1
      cases nodes with
      | nil => simp at hlen
      | cons a t => simp

theorem containment_iff_same_set (stored cand : List Char) (L : Nat)
    (hs : IsClosedSimple stored L) (hc : IsClosedSimple cand L) :
    (∀ x ∈ cand.take L, x ∈ stored.take L) ↔
      (stored.take L).toFinset = (cand.take L).toFinset := by
  constructor
  · intro h
    symm
    apply Finset.eq_of_subset_of_card_le
    · intro x hx
      rw [List.mem_toFinset] at hx ⊢
      exact h x hx
    · rw [closedSimple_card stored L hs, closedSimple_card cand L hc]
  · intro h x hx
    have : x ∈ (cand.take L).toFinset := List.mem_toFinset.2 hx
    rw [← h] at this
    exact List.mem_toFinset.1 this

theorem isClosedSimple_of_recorded (g : Graph) (c : Cycle) (h : Recorded g c) :
    IsClosedSimple c.nodes c.length := by
  obtain ⟨r, vs, ws, hlen, hnd, hhead, hnodes, hlength, _, _⟩ := Recorded.shape g c h
  rw [hnodes, hlength]
  refine ⟨by simp, by simpa using hnd, ?_⟩
  cases vs with
  | nil => simp at hlen
  | cons a t =>
    simp at hhead
    subst hhead
    simp

theorem isVisited_all_iff (stored cand : List Char) (L : Nat) :
    (cand.take L).all (fun x => isVisited stored L x) = true ↔
      ∀ x ∈ cand.take L, x ∈ stored.take L := by
  simp only [List.all_eq_true, isVisited, List.any_eq_true, beq_iff_eq]
  constructor
  · intro h x hx
    obtain ⟨y, hy, hyx⟩ := h x hx
    exact hyx ▸ hy
  · intro h x hx
    exact ⟨x, h x hx, rfl⟩

theorem registerAll_closedSimple (g : Graph) (fuel : Nat) (cs : List Cand)
    (hcs : findCands fuel g = some cs) (reg0 : List Cycle)
    (hreg0 : ∀ c ∈ reg0, IsClosedSimple c.nodes c.length) (pre : List Cand)
    (hpre : ∀ a ∈ pre, a ∈ cs) :
    ∀ c ∈ registerAll reg0 pre, IsClosedSimple c.nodes c.length := by
  intro c hc
  rcases registerAll_mem pre reg0 c hc with h | ⟨a, ha, hca⟩
  · exact hreg0 c h
  · rw [hca]
    exact isClosedSimple_of_recorded g _ (recorded_of_cand g fuel cs hcs a (hpre a ha))

theorem isCycleUnique_call (g : Graph) (fuel : Nat) (reg0 : List Cycle)
    (pre post : List Cand) (a : Cand)
    (hreg0 : ∀ c ∈ reg0, IsClosedSimple c.nodes c.length)
    (hcall : findCands fuel g = some (pre ++ a :: post)) :
    isCycleUnique (registerAll reg0 pre) a.1 a.1.length a.2 = false ↔
      ∃ c ∈ registerAll reg0 pre, c.length = a.1.length ∧ c.perimeter = a.2 ∧
        c.vertexSet = a.1.toFinset := by
  have ha : IsClosedSimple a.1 a.1.length := by
    have := isClosedSimple_of_recorded g _
      (recorded_of_cand g fuel _ hcall a (by simp))
    exact this
  have hstored := registerAll_closedSimple g fuel _ hcall reg0 hreg0 pre
    (fun b hb => List.mem_append_left _ hb)
  rw [isCycleUnique_eq_false]
  constructor
  · rintro ⟨c, hc, hl, hp, hsub⟩
    refine ⟨c, hc, hl, hp, ?_⟩
    have hcs := hstored c hc
    rw [hl] at hcs
    have := (containment_iff_same_set c.nodes a.1 a.1.length hcs ha).1 hsub
    unfold Cycle.vertexSet
    rw [hl, this, List.take_length]
  · rintro ⟨c, hc, hl, hp, hset⟩
    refine ⟨c, hc, hl, hp, ?_⟩
    have hcs := hstored c hc
    rw [hl] at hcs
    apply (containment_iff_same_set c.nodes a.1 a.1.length hcs ha).2
    unfold Cycle.vertexSet at hset
    rw [hl] at hset
    rw [hset, List.take_length]

/-- C17 (containment equals set equality on DFS candidates): for a stored
cycle and a candidate that are closed simple paths of the same length, the
check of `isCycleUnique` (every candidate node occurs among the stored cycle's
first `length` nodes) holds iff the two vertex sets are equal.  Hence at every
call that `dfs` makes during `findCycles` (the candidates before it being
`pre`, so that the registry is `registerAll reg0 pre`, and the run continuing
with `post`), `isCycleUnique` returns 0 exactly when a stored cycle has equal
length, equal perimeter and the same vertex set as the candidate. -/
theorem isCycleUnique_containment_iff_same_set (stored cand : List Char) (length : Nat)
    (hs : IsClosedSimple stored length) (hc : IsClosedSimple cand length)
    (g : Graph) (fuel : Nat) (reg0 : List Cycle) (pre post : List Cand) (a : Cand)
    (hreg0 : ∀ c ∈ reg0, IsClosedSimple c.nodes c.length)
    (hcall : findCands fuel g = some (pre ++ a :: post)) :
    ((cand.take length).all (fun x => isVisited stored length x) = true ↔
      (stored.take length).toFinset = (cand.take length).toFinset) ∧
    findCycles fuel g reg0
      = some (registerAll (registerCycle (registerAll reg0 pre) a.1 a.1.length a.2) post) ∧
    (isCycleUnique (registerAll reg0 pre) a.1 a.1.length a.2 = false ↔
      ∃ c ∈ registerAll reg0 pre, c.length = a.1.length ∧ c.perimeter = a.2 ∧
        c.vertexSet = a.1.toFinset) := by
  refine ⟨?_, ?_, isCycleUnique_call g fuel reg0 pre post a hreg0 hcall⟩
  · rw [isVisited_all_iff]
    exact containment_iff_same_set stored cand length hs hc
  · rw [findCycles_eq_cands, hcall, Option.map_some', registerAll_append]
    rfl

/-- Witness for C17: on the triangle, the second candidate A-B-C-A meets the
stored A-C-B-A. -/
theorem isCycleUnique_containment_iff_same_set_witness :
    IsClosedSimple ['A', 'C', 'B', 'A'] 4 ∧ IsClosedSimple ['A', 'B', 'C', 'A'] 4 ∧
    findCands (dfsFuel triangle) triangle =
      some ([(['A', 'C', 'B', 'A'], 6)] ++ (['A', 'B', 'C', 'A'], 6) ::
        [(['B', 'C', 'A', 'B'], 6), (['B', 'A', 'C', 'B'], 6), (['C', 'A', 'B', 'C'], 6),
          (['C', 'B', 'A', 'C'], 6)]) ∧
    ((['A', 'B', 'C', 'A'].take 4).all (fun x => isVisited ['A', 'C', 'B', 'A'] 4 x) = true ↔
      (['A', 'C', 'B', 'A'].take 4).toFinset = (['A', 'B', 'C', 'A'].take 4).toFinset) ∧
    findCycles (dfsFuel triangle) triangle []
      = some (registerAll (registerCycle (registerAll [] [(['A', 'C', 'B', 'A'], 6)])
          ['A', 'B', 'C', 'A'] 4 6)
        [(['B', 'C', 'A', 'B'], 6), (['B', 'A', 'C', 'B'], 6), (['C', 'A', 'B', 'C'], 6),
          (['C', 'B', 'A', 'C'], 6)]) ∧
    (isCycleUnique (registerAll [] [(['A', 'C', 'B', 'A'], 6)]) ['A', 'B', 'C', 'A'] 4 6 = false ↔
      ∃ c ∈ registerAll [] [(['A', 'C', 'B', 'A'], 6)],
        c.length = 4 ∧ c.perimeter = 6 ∧ c.vertexSet = ['A', 'B', 'C', 'A'].toFinset) :=
  ⟨by decide, by decide, by decide,
    isCycleUnique_containment_iff_same_set ['A', 'C', 'B', 'A'] ['A', 'B', 'C', 'A'] 4
      (by decide) (by decide) triangle (dfsFuel triangle) []
      [(['A', 'C', 'B', 'A'], 6)]
      [(['B', 'C', 'A', 'B'], 6), (['B', 'A', 'C', 'B'], 6), (['C', 'A', 'B', 'C'], 6),
        (['C', 'B', 'A', 'C'], 6)]
      (['A', 'B', 'C', 'A'], 6) (by simp) (by decide)⟩

/-! ## Report -/

theorem countLoop_eq : ∀ (cycles : List Cycle) (t q p : Nat),
    countLoop cycles (t, q, p) =
      (t + cycles.countP (fun c => c.length = 4), q + cycles.countP (fun c => c.length = 5),
        p + cycles.countP (fun c => c.length = 6)) := by
  intro cycles
  induction cycles with
  | nil => intro t q p; simp [countLoop]
  | cons c rest ih =>
    intro t q p
    simp only [countLoop, List.countP_cons]
    by_cases h4 : c.length = 4
    · simp [h4, ih]; omega
    · by_cases h5 : c.length = 5
      · simp [h5, ih]; omega
      · by_cases h6 : c.length = 6
        · simp [h6, ih]; omega
        · simp [h4, h5, h6, ih]

theorem length_eq_class_counts : ∀ (cycles : List Cycle),
    cycles.length = cycles.countP (fun c => c.length = 4) + cycles.countP (fun c => c.length = 5)
      + cycles.countP (fun c => c.length = 6)
      + cycles.countP (fun c => c.length ≠ 4 ∧ c.length ≠ 5 ∧ c.length ≠ 6) := by
  intro cycles
  induction cycles with
  | nil => rfl
  | cons c rest ih =>
    rw [List.length_cons, List.countP_cons, List.countP_cons, List.countP_cons,
      List.countP_cons]
    by_cases h4 : c.length = 4
    · have e5 : ¬ c.length = 5 := by omega
      have e6 : ¬ c.length = 6 := by omega
      have e7 : ¬ (c.length ≠ 4 ∧ c.length ≠ 5 ∧ c.length ≠ 6) := fun h => h.1 h4
      rw [if_pos (decide_eq_true h4), if_neg (by simpa using e5), if_neg (by simpa using e6),
        if_neg (by simpa using e7)]
      omega
    · by_cases h5 : c.length = 5
      · have e6 : ¬ c.length = 6 := by omega
        have e7 : ¬ (c.length ≠ 4 ∧ c.length ≠ 5 ∧ c.length ≠ 6) := fun h => h.2.1 h5
        rw [if_neg (by simpa using h4), if_pos (decide_eq_true h5),
          if_neg (by simpa using e6), if_neg (by simpa using e7)]
        omega
      · by_cases h6 : c.length = 6
        · have e7 : ¬ (c.length ≠ 4 ∧ c.length ≠ 5 ∧ c.length ≠ 6) := fun h => h.2.2 h6
          rw [if_neg (by simpa using h4), if_neg (by simpa using h5),
            if_pos (decide_eq_true h6), if_neg (by simpa using e7)]
          omega
        · have e7 : c.length ≠ 4 ∧ c.length ≠ 5 ∧ c.length ≠ 6 := ⟨h4, h5, h6⟩
          rw [if_neg (by simpa using h4), if_neg (by simpa using h5),
            if_neg (by simpa using h6), if_pos (decide_eq_true e7)]
          omega

theorem recorded_card (g : Graph) (c : Cycle) (h : Recorded g c) :
    c.vertexSet.card + 1 = c.length ∧ 4 ≤ c.length := by
  have hcs := isClosedSimple_of_recorded g c h
  obtain ⟨r, vs, ws, hlen, _, _, _, hlength, _, _⟩ := Recorded.shape g c h
  have := closedSimple_card c.nodes c.length hcs
  unfold Cycle.vertexSet
  rw [this, if_neg (by omega)]
  omega

/-- C18 (report classification): for every registry `printCycles` reports as
total the number of entries and as 3'gen, 4'gen and 5'gen counts the numbers of
entries of recorded length 4, 5 and 6, which sum to at most the total; for a
registry produced by `findCycles` these are the numbers of entries with exactly
3, 4 and 5 distinct vertices, and the total exceeds their sum by the number of
entries of length 7 or more. -/
theorem printCycles_classification :
    (∀ cycles : List Cycle,
      (printCycles cycles).shapes = cycles.length ∧
      (printCycles cycles).triangles = cycles.countP (fun c => c.length = 4) ∧
      (printCycles cycles).quadrilaterals = cycles.countP (fun c => c.length = 5) ∧
      (printCycles cycles).pentagons = cycles.countP (fun c => c.length = 6) ∧
      (printCycles cycles).triangles + (printCycles cycles).quadrilaterals
        + (printCycles cycles).pentagons ≤ (printCycles cycles).shapes) ∧
    (∀ (g : Graph) (k : Nat), ∃ reg, findCycles (dfsFuel g + k) g [] = some reg ∧
      (printCycles reg).triangles = reg.countP (fun c => c.vertexSet.card = 3) ∧
      (printCycles reg).quadrilaterals = reg.countP (fun c => c.vertexSet.card = 4) ∧
      (printCycles reg).pentagons = reg.countP (fun c => c.vertexSet.card = 5) ∧
      (printCycles reg).shapes = (printCycles reg).triangles + (printCycles reg).quadrilaterals
        + (printCycles reg).pentagons + reg.countP (fun c => 7 ≤ c.length)) := by
  have hcounts : ∀ cycles : List Cycle,
      (printCycles cycles).shapes = cycles.length ∧
      (printCycles cycles).triangles = cycles.countP (fun c => c.length = 4) ∧
      (printCycles cycles).quadrilaterals = cycles.countP (fun c => c.length = 5) ∧
      (printCycles cycles).pentagons = cycles.countP (fun c => c.length = 6) := by
    intro cycles
    simp only [printCycles, countLoop_eq, Nat.zero_add, and_self]
  refine ⟨?_, ?_⟩
  · intro cycles
    obtain ⟨h0, h1, h2, h3⟩ := hcounts cycles
    refine ⟨h0, h1, h2, h3, ?_⟩
    rw [h0, h1, h2, h3]
    have := length_eq_class_counts cycles
    omega
  · intro g k
    obtain ⟨added, hrun, hrec⟩ := findCycles_added g k []
    rw [List.nil_append] at hrun
    refine ⟨added, hrun, ?_⟩
    obtain ⟨h0, h1, h2, h3⟩ := hcounts added
    have hcard : ∀ c ∈ added, c.vertexSet.card + 1 = c.length ∧ 4 ≤ c.length :=
      fun c hc => recorded_card g c (hrec c hc)
    have e3 : added.countP (fun c => c.length = 4)
        = added.countP (fun c => c.vertexSet.card = 3) := by
      apply List.countP_congr
      intro c hc
      have := hcard c hc
      simp only [decide_eq_true_eq]
      omega
    have e4 : added.countP (fun c => c.length = 5)
        = added.countP (fun c => c.vertexSet.card = 4) := by
      apply List.countP_congr
      intro c hc
      have := hcard c hc
      simp only [decide_eq_true_eq]
      omega
    have e5 : added.countP (fun c => c.length = 6)
        = added.countP (fun c => c.vertexSet.card = 5) := by
      apply List.countP_congr
      intro c hc
      have := hcard c hc
      simp only [decide_eq_true_eq]
      omega
    have e7 : added.countP (fun c => c.length ≠ 4 ∧ c.length ≠ 5 ∧ c.length ≠ 6)
        = added.countP (fun c => 7 ≤ c.length) := by
      apply List.countP_congr
      intro c hc
      have := hcard c hc
      simp only [decide_eq_true_eq]
      omega
    refine ⟨by rw [h1, e3], by rw [h2, e4], by rw [h3, e5], ?_⟩
    rw [h0, h1, h2, h3, ← e7]
    exact length_eq_class_counts added

/-! ## The complete graph on four vertices -/

theorem registry_triples_perm (g0 : Graph) (es1 es2 : List Edge) (h : SameEdges es1 es2)
    (k1 k2 : Nat) :
    ∃ reg1 reg2,
      findCycles (dfsFuel (addEdges g0 es1) + k1) (addEdges g0 es1) [] = some reg1 ∧
      findCycles (dfsFuel (addEdges g0 es2) + k2) (addEdges g0 es2) [] = some reg2 ∧
      (reg1.map Cycle.triple).Perm (reg2.map Cycle.triple) := by
  obtain ⟨cs1, h1, h2⟩ := findCycles_run (addEdges g0 es1) k1 []
  obtain ⟨cs2, h3, h4⟩ := findCycles_run (addEdges g0 es2) k2 []
  refine ⟨_, _, h2, h4, ?_⟩
  have hn : (addEdges g0 es1).numVertices = (addEdges g0 es2).numVertices := by
    rw [addEdges_numVertices, addEdges_numVertices]
  have hv : (addEdges g0 es1).vertices = (addEdges g0 es2).vertices := by
    rw [addEdges_vertices, addEdges_vertices]
  have hadj := sameEdges_adjList g0 es1 es2 h
  have hnd : ∀ cs : List Cand, ((registerAll [] cs).map Cycle.triple).Nodup := by
    intro cs
    unfold List.Nodup
    rw [List.pairwise_map]
    exact registerAll_pairwise cs [] List.Pairwise.nil
  apply List.perm_of_nodup_nodup_toFinset_eq (hnd cs1) (hnd cs2)
  ext t
  simp only [List.mem_toFinset, List.mem_map]
  constructor
  · rintro ⟨c1, hc1, rfl⟩
    obtain ⟨c2, hc2, ht⟩ := triples_subset _ _ _ _ cs1 cs2 h1 h3 hn hv
      (fun j x => (hadj j x).1) c1 hc1
    exact ⟨c2, hc2, ht⟩
  · rintro ⟨c2, hc2, rfl⟩
    obtain ⟨c1, hc1, ht⟩ := triples_subset _ _ _ _ cs2 cs1 h3 h1 hn.symm hv.symm
      (fun j x => (hadj j x).2) c2 hc2
    exact ⟨c1, hc1, ht⟩

set_option maxRecDepth 100000 in
theorem completeK4_registry :
    findCycles (dfsFuel completeK4 + 0) completeK4 [] =
      some [⟨['A', 'D', 'C', 'B', 'A'], 5, 4⟩, ⟨['A', 'D', 'C', 'A'], 4, 3⟩,
        ⟨['A', 'D', 'B', 'A'], 4, 3⟩, ⟨['A', 'C', 'B', 'A'], 4, 3⟩,
        ⟨['B', 'D', 'C', 'B'], 4, 3⟩] := by
  decide

set_option maxRecDepth 1000000 in
theorem completeK4_cands_classified :
    (findCands (dfsFuel completeK4) completeK4).all
      (fun cs => cs.all (fun a => decide (∃ r ∈ k4Cycles, SameCycle a.1.dropLast r))) = true := by
  decide

theorem completeK4_cycle_classified (vs : List Char) (ws : List Int)
    (hcyc : SimpleCycle completeK4 vs ws) (hverts : ∀ v ∈ vs, IsVertex completeK4 v) :
    ∃ r ∈ k4Cycles, SameCycle vs r := by
  obtain ⟨cs, hcs⟩ := findCands_total completeK4 0
  rw [Nat.add_zero] at hcs
  have hall := completeK4_cands_classified
  rw [hcs] at hall
  simp only [Option.all_some, List.all_eq_true, decide_eq_true_eq] at hall
  have hlen : 3 ≤ vs.length := hcyc.1
  cases vs with
  | nil => simp at hlen
  | cons x t =>
    obtain ⟨j, hj, hjx⟩ := hverts x (List.mem_cons_self _ _)
    have hmem := findCands_complete completeK4 _ cs hcs (x :: t) ws hcyc
      ⟨j, hj, by rw [hjx]; rfl⟩
    have h1 := hall _ hmem
    have h2 : ((x :: t) ++ (x :: t).take 1).dropLast = x :: t := by
      have : (x :: t).take 1 = [x] := rfl
      rw [this, List.dropLast_concat]
    rw [h2] at h1
    exact h1

set_option maxRecDepth 100000 in
theorem completeK4_main_registry :
    findCycles (dfsFuel (addEdges mainGraph k4Edges) + 0) (addEdges mainGraph k4Edges) [] =
      some [⟨['A', 'D', 'C', 'B', 'A'], 5, 4⟩, ⟨['A', 'D', 'C', 'A'], 4, 3⟩,
        ⟨['A', 'D', 'B', 'A'], 4, 3⟩, ⟨['A', 'C', 'B', 'A'], 4, 3⟩,
        ⟨['B', 'D', 'C', 'B'], 4, 3⟩] := by
  decide

theorem completeK4_counts (g0 : Graph)
    (heval : findCycles (dfsFuel (addEdges g0 k4Edges) + 0) (addEdges g0 k4Edges) [] =
      some [⟨['A', 'D', 'C', 'B', 'A'], 5, 4⟩, ⟨['A', 'D', 'C', 'A'], 4, 3⟩,
        ⟨['A', 'D', 'B', 'A'], 4, 3⟩, ⟨['A', 'C', 'B', 'A'], 4, 3⟩,
        ⟨['B', 'D', 'C', 'B'], 4, 3⟩])
    (es : List Edge) (h : SameEdges k4Edges es) (k : Nat) :
    ∃ reg, findCycles (dfsFuel (addEdges g0 es) + k) (addEdges g0 es) [] = some reg ∧
      reg.length = 5 ∧
      reg.countP (fun c => c.length = 4 ∧ c.perimeter = 3) = 4 ∧
      reg.countP (fun c => c.length = 5 ∧ c.perimeter = 4) = 1 := by
  obtain ⟨reg1, reg2, h1, h2, hperm⟩ := registry_triples_perm g0 k4Edges es h 0 k
  have e1 : reg1 = _ := Option.some.inj (h1.symm.trans heval)
  rw [e1] at hperm
  refine ⟨reg2, h2, ?_, ?_, ?_⟩
  · have := hperm.length_eq
    simpa using this.symm
  · have e : reg2.countP (fun c => c.length = 4 ∧ c.perimeter = 3)
        = (reg2.map Cycle.triple).countP (fun t => t.1 = 4 ∧ t.2.1 = 3) := by
      rw [List.countP_map]
      rfl
    rw [e, ← hperm.countP_eq]
    decide
  · have e : reg2.countP (fun c => c.length = 5 ∧ c.perimeter = 4)
        = (reg2.map Cycle.triple).countP (fun t => t.1 = 5 ∧ t.2.1 = 4) := by
      rw [List.countP_map]
      rfl
    rw [e, ← hperm.countP_eq]
    decide

set_option maxRecDepth 100000 in
/-- C19 (cycles over the same vertex set with equal perimeter collapse): on the
complete graph on A, B, C, D with all six weights 1, the edges read in the
order of `k4Edges` or in any other order and direction, over the vertex array
A..D as over the array A..G of `main`, `findCycles` from an empty registry
registers exactly 5 entries, four of length 4 with perimeter 3 and one of
length 5 with perimeter 4; yet the graph has 7 simple cycles up to rotation and
reflection: the 7 cycles of `k4Cycles` are simple cycles of the graph, no two
of them are the same up to rotation and reflection, and every simple cycle of
the graph is one of them up to rotation and reflection. -/
theorem findCycles_completeK4 (es : List Edge) (h : SameEdges k4Edges es) (k : Nat) :
    (∃ reg, findCycles (dfsFuel (addEdges graphABCD es) + k) (addEdges graphABCD es) []
        = some reg ∧
      reg.length = 5 ∧
      reg.countP (fun c => c.length = 4 ∧ c.perimeter = 3) = 4 ∧
      reg.countP (fun c => c.length = 5 ∧ c.perimeter = 4) = 1) ∧
    (∃ reg, findCycles (dfsFuel (addEdges mainGraph es) + k) (addEdges mainGraph es) []
        = some reg ∧
      reg.length = 5 ∧
      reg.countP (fun c => c.length = 4 ∧ c.perimeter = 3) = 4 ∧
      reg.countP (fun c => c.length = 5 ∧ c.perimeter = 4) = 1) ∧
    k4Cycles.length = 7 ∧
    (∀ r ∈ k4Cycles, SimpleCycle completeK4 r (List.replicate r.length 1)) ∧
    k4Cycles.Pairwise (fun a b => ¬ SameCycle a b) ∧
    (∀ vs ws, SimpleCycle completeK4 vs ws → (∀ v ∈ vs, IsVertex completeK4 v) →
      ∃ r ∈ k4Cycles, SameCycle vs r) :=
  ⟨completeK4_counts graphABCD completeK4_registry es h k,
    completeK4_counts mainGraph completeK4_main_registry es h k,
    rfl, by decide, by decide, completeK4_cycle_classified⟩

/-- Witness for C19: the six edges in the reverse order, each one reversed. -/
theorem findCycles_completeK4_witness :
    SameEdges k4Edges
      [⟨'D', 'C', 1⟩, ⟨'D', 'B', 1⟩, ⟨'C', 'B', 1⟩, ⟨'D', 'A', 1⟩, ⟨'C', 'A', 1⟩,
        ⟨'B', 'A', 1⟩] ∧
    ((∃ reg, findCycles
        (dfsFuel (addEdges graphABCD
          [⟨'D', 'C', 1⟩, ⟨'D', 'B', 1⟩, ⟨'C', 'B', 1⟩, ⟨'D', 'A', 1⟩, ⟨'C', 'A', 1⟩,
            ⟨'B', 'A', 1⟩]) + 0)
        (addEdges graphABCD
          [⟨'D', 'C', 1⟩, ⟨'D', 'B', 1⟩, ⟨'C', 'B', 1⟩, ⟨'D', 'A', 1⟩, ⟨'C', 'A', 1⟩,
            ⟨'B', 'A', 1⟩]) [] = some reg ∧
      reg.length = 5 ∧
      reg.countP (fun c => c.length = 4 ∧ c.perimeter = 3) = 4 ∧
      reg.countP (fun c => c.length = 5 ∧ c.perimeter = 4) = 1) ∧
    (∃ reg, findCycles
        (dfsFuel (addEdges mainGraph
          [⟨'D', 'C', 1⟩, ⟨'D', 'B', 1⟩, ⟨'C', 'B', 1⟩, ⟨'D', 'A', 1⟩, ⟨'C', 'A', 1⟩,
            ⟨'B', 'A', 1⟩]) + 0)
        (addEdges mainGraph
          [⟨'D', 'C', 1⟩, ⟨'D', 'B', 1⟩, ⟨'C', 'B', 1⟩, ⟨'D', 'A', 1⟩, ⟨'C', 'A', 1⟩,
            ⟨'B', 'A', 1⟩]) [] = some reg ∧
      reg.length = 5 ∧
      reg.countP (fun c => c.length = 4 ∧ c.perimeter = 3) = 4 ∧
      reg.countP (fun c => c.length = 5 ∧ c.perimeter = 4) = 1) ∧
    k4Cycles.length = 7 ∧
    (∀ r ∈ k4Cycles, SimpleCycle completeK4 r (List.replicate r.length 1)) ∧
    k4Cycles.Pairwise (fun a b => ¬ SameCycle a b) ∧
    (∀ vs ws, SimpleCycle completeK4 vs ws → (∀ v ∈ vs, IsVertex completeK4 v) →
      ∃ r ∈ k4Cycles, SameCycle vs r)) :=
  have hs : SameEdges k4Edges
      [⟨'D', 'C', 1⟩, ⟨'D', 'B', 1⟩, ⟨'C', 'B', 1⟩, ⟨'D', 'A', 1⟩, ⟨'C', 'A', 1⟩,
        ⟨'B', 'A', 1⟩] :=
    ⟨[⟨'B', 'A', 1⟩, ⟨'C', 'A', 1⟩, ⟨'D', 'A', 1⟩, ⟨'C', 'B', 1⟩, ⟨'D', 'B', 1⟩,
        ⟨'D', 'C', 1⟩],
      List.Forall₂.cons (Or.inr rfl) (List.Forall₂.cons (Or.inr rfl)
        (List.Forall₂.cons (Or.inr rfl) (List.Forall₂.cons (Or.inr rfl)
          (List.Forall₂.cons (Or.inr rfl) (List.Forall₂.cons (Or.inr rfl)
            List.Forall₂.nil))))),
      by decide⟩
  ⟨hs, findCycles_completeK4 _ hs 0⟩

/-! ## The first node of a stored cycle -/

theorem registerAll_mem_split : ∀ (cs : List Cand) (reg : List Cycle),
    ∀ c ∈ registerAll reg cs, c ∈ reg ∨ ∃ pre a post, cs = pre ++ a :: post ∧
      c = ⟨a.1, a.1.length, a.2⟩ ∧
      isCycleUnique (registerAll reg pre) a.1 a.1.length a.2 = true := by
  intro cs
  induction cs with
  | nil => intro reg c hc; exact Or.inl (by simpa [registerAll] using hc)
  | cons b cs ih =>
    intro reg c hc
    have hstep : ∀ l, registerAll reg (b :: l)
        = registerAll (registerCycle reg b.1 b.1.length b.2) l := fun _ => rfl
    rw [hstep] at hc
    rcases ih _ c hc with h | ⟨pre, a, post, h1, h2, h3⟩
    · by_cases hu : isCycleUnique reg b.1 b.1.length b.2 = true
      · rcases registerCycle_mem _ _ _ _ c h with h4 | h4
        · exact Or.inl h4
        · refine Or.inr ⟨[], b, cs, rfl, by simpa using h4, ?_⟩
          simpa [registerAll] using hu
      · rw [registerCycle_absorb _ _ _ _ (by simpa using hu)] at h
        exact Or.inl h
    · refine Or.inr ⟨b :: pre, a, post, by rw [h1]; rfl, h2, ?_⟩
      rw [hstep]
      exact h3

theorem findCandsFrom_split (g : Graph) (fuel : Nat) :
    ∀ m i cs pre a post, findCandsFrom fuel g m i = some cs → cs = pre ++ a :: post →
      ∃ j, i ≤ j ∧ j < i + m ∧
        (∃ cs1, dfsCands fuel g (g.vertices j) [g.vertices j] 0 = some cs1 ∧ a ∈ cs1) ∧
        ∀ j1, i ≤ j1 → j1 < j → ∀ cs2,
          dfsCands fuel g (g.vertices j1) [g.vertices j1] 0 = some cs2 → ∀ b ∈ cs2, b ∈ pre := by
  intro m
  induction m with
  | zero =>
    intro i cs pre a post h hcs
    simp [findCandsFrom] at h
    subst h
    simp at hcs
  | succ m ih =>
    intro i cs pre a post h hcs
    simp only [findCandsFrom] at h
    cases hr : dfsCands fuel g (g.vertices i) [g.vertices i] 0 with
    | none => simp [hr] at h
    | some cs1 =>
      cases hl : findCandsFrom fuel g m (i + 1) with
      | none => simp [hr, hl] at h
      | some cs2 =>
        simp [hr, hl] at h
        subst h
        rcases List.append_eq_append_iff.1 hcs with ⟨a1, h1, h2⟩ | ⟨c1, h1, h2⟩
        · -- `pre = cs1 ++ a1` and `cs2 = a1 ++ a :: post`
          obtain ⟨j, hj1, hj2, hj3, hj4⟩ := ih (i + 1) cs2 a1 a post hl h2
          refine ⟨j, by omega, by omega, hj3, ?_⟩
          intro j1 hj5 hj6 cs3 hcs3 b hb
          rw [h1]
          by_cases hji : j1 = i
          · subst hji
            rw [hr] at hcs3
            exact List.mem_append_left _ ((Option.some.inj hcs3) ▸ hb)
          · exact List.mem_append_right _ (hj4 j1 (by omega) hj6 cs3 hcs3 b hb)
        · -- `cs1 = pre ++ c1` and `a :: post = c1 ++ cs2`
          cases c1 with
          | nil =>
            simp only [List.nil_append, List.append_nil] at h1 h2
            obtain ⟨j, hj1, hj2, hj3, hj4⟩ := ih (i + 1) cs2 [] a post hl h2.symm
            refine ⟨j, by omega, by omega, hj3, ?_⟩
            intro j1 hj5 hj6 cs3 hcs3 b hb
            by_cases hji : j1 = i
            · subst hji
              rw [hr] at hcs3
              rw [← h1]
              exact (Option.some.inj hcs3) ▸ hb
            · exact absurd (hj4 j1 (by omega) hj6 cs3 hcs3 b hb) (by simp)
          | cons a2 c2 =>
            simp only [List.cons_append, List.cons.injEq] at h2
            obtain ⟨h3, _⟩ := h2
            subst h3
            refine ⟨i, le_refl _, by omega, ⟨cs1, hr, by rw [h1]; simp⟩, ?_⟩
            intro j1 hj5 hj6
            omega

theorem scanVertices_le_of_eq (vertices : Nat → Char) (v : Char) :
    ∀ k i j, i ≤ j → j < i + k → vertices j = v → scanVertices vertices v k i ≤ j := by
  intro k
  induction k with
  | zero => intro i j h1 h2 _; omega
  | succ k ih =>
    intro i j h1 h2 h3
    simp only [scanVertices]
    split
    · exact h1
    · rename_i h
      have hji : j ≠ i := fun e => h (e ▸ h3)
      exact ih (i + 1) j (by omega) (by omega) h3

theorem vertexIndex_le_of_eq (g : Graph) (j : Nat) (hj : j < g.numVertices) :
    vertexIndex g (g.vertices j) ≤ j :=
  scanVertices_le_of_eq g.vertices _ g.numVertices 0 j (Nat.zero_le _) (by omega) rfl

theorem dfsCands_root_complete (g : Graph) (fuel : Nat) (j : Nat) (cs1 : List Cand)
    (h1 : dfsCands fuel g (g.vertices j) [g.vertices j] 0 = some cs1)
    (vs : List Char) (ws : List Int) (hcyc : SimpleCycle g vs ws)
    (hhead : vs.head? = some (g.vertices j)) :
    (vs ++ vs.take 1, wrapInt ws.sum) ∈ cs1 := by
  obtain ⟨hlen, hnd, hwalk⟩ := hcyc
  cases vs with
  | nil => simp at hlen
  | cons a t =>
    simp at hhead
    subst hhead
    have := dfsCands_complete g (g.vertices j) t fuel (g.vertices j) [g.vertices j] 0 ws cs1
      (by simp) (by simpa using hnd) (by simp) (by simpa using hwalk)
      (by simpa using hlen) h1
    simpa using this

theorem Walk_split (g : Graph) (y : Char) (q : List Char) :
    ∀ p ws, Walk g (p ++ y :: q) ws →
      ∃ w1 w2, ws = w1 ++ w2 ∧ Walk g (p ++ [y]) w1 ∧ Walk g (y :: q) w2 := by
  intro p
  induction p with
  | nil => intro ws h; exact ⟨[], ws, rfl, trivial, h⟩
  | cons a t ih =>
    intro ws h
    cases t with
    | nil =>
      cases ws with
      | nil => simp [Walk] at h
      | cons w ws1 =>
        simp only [List.cons_append, List.nil_append, Walk] at h
        exact ⟨[w], ws1, rfl, by simp [Walk, h.1], by simpa using h.2⟩
    | cons b t1 =>
      cases ws with
      | nil => simp [Walk] at h
      | cons w ws1 =>
        simp only [List.cons_append, Walk] at h
        obtain ⟨w1, w2, h1, h2, h3⟩ := ih ws1 (by simpa using h.2)
        refine ⟨w :: w1, w2, by rw [h1]; rfl, ?_, h3⟩
        simp only [List.cons_append, Walk]
        exact ⟨h.1, by simpa using h2⟩

theorem Walk_join (g : Graph) (y : Char) (q : List Char) (w2 : List Int)
    (hq : Walk g (y :: q) w2) :
    ∀ p w1, Walk g (p ++ [y]) w1 → Walk g (p ++ y :: q) (w1 ++ w2) := by
  intro p
  induction p with
  | nil =>
    intro w1 h
    cases w1 with
    | nil => simpa using hq
    | cons w w1 => simp [Walk] at h
  | cons a t ih =>
    intro w1 h
    cases t with
    | nil =>
      cases w1 with
      | nil => simp [Walk] at h
      | cons w w1 =>
        cases w1 with
        | nil =>
          simp only [List.cons_append, List.nil_append, Walk, and_true] at h
          simp only [List.cons_append, List.nil_append, Walk]
          exact ⟨h, hq⟩
        | cons w3 w4 => simp [Walk] at h
    | cons b t1 =>
      cases w1 with
      | nil => simp [Walk] at h
      | cons w w1 =>
        simp only [List.cons_append, Walk] at h
        have := ih w1 (by simpa using h.2)
        simp only [List.cons_append, Walk]
        exact ⟨h.1, by simpa using this⟩

theorem SimpleCycle_rotate (g : Graph) (l1 l2 : List Char) (x : Char) (ws : List Int)
    (h : SimpleCycle g (l1 ++ x :: l2) ws) :
    ∃ ws1, SimpleCycle g (x :: l2 ++ l1) ws1 ∧ ws1.sum = ws.sum := by
  cases l1 with
  | nil => exact ⟨ws, by simpa using h, rfl⟩
  | cons r t =>
    obtain ⟨hlen, hnd, hwalk⟩ := h
    have hw : Walk g ((r :: t) ++ x :: (l2 ++ [r])) ws := by
      simpa using hwalk
    obtain ⟨w1, w2, hws, hp, hq⟩ := Walk_split g x (l2 ++ [r]) (r :: t) ws hw
    have hq1 : Walk g ((x :: l2) ++ [r]) w2 := by simpa using hq
    have hp1 : Walk g (r :: (t ++ [x])) w1 := by simpa using hp
    have hj := Walk_join g r (t ++ [x]) w1 hp1 (x :: l2) w2 hq1
    refine ⟨w2 ++ w1, ⟨?_, ?_, ?_⟩, ?_⟩
    · simp only [List.length_append, List.length_cons] at hlen ⊢
      omega
    · exact (List.perm_append_comm.nodup_iff).1 hnd
    · simpa using hj
    · rw [hws, List.sum_append, List.sum_append, add_comm]

theorem registerAll_first_root (g : Graph) (fuel : Nat) (cs : List Cand)
    (hcs : findCands fuel g = some cs) :
    ∀ c ∈ registerAll [] cs, ∃ r, c.nodes[0]? = some r ∧ IsVertex g r ∧
      ∀ j, j < g.numVertices → g.vertices j ∈ c.nodes.take c.length → vertexIndex g r ≤ j := by
  intro c hc
  rcases registerAll_mem_split cs [] c hc with h | ⟨pre, a, post, hsplit, hca, huniq⟩
  · simp at h
  obtain ⟨j0, _, hj0, ⟨cs1, hcs1, ha1⟩, hearlier⟩ :=
    findCandsFrom_split g fuel _ _ cs pre a post hcs hsplit
  have hj0n : j0 < g.numVertices := by omega
  obtain ⟨vs, ws, hcyc, hav, hhead⟩ := dfsCands_sound g fuel (g.vertices j0) [g.vertices j0] 0 []
    cs1 (List.nodup_singleton _) (by simp [Walk]) (by decide) (by simp) hcs1 a ha1
  have hhead1 : vs.head? = some (g.vertices j0) := by simpa using hhead
  obtain ⟨t, hvs⟩ : ∃ t, vs = g.vertices j0 :: t := by
    cases vs with
    | nil => simp at hhead1
    | cons y t => simp at hhead1; exact ⟨t, by rw [hhead1]⟩
  have ha1eq : a.1 = vs ++ [g.vertices j0] := by rw [hav, hvs]; rfl
  have ha2eq : a.2 = wrapInt ws.sum := by rw [hav]
  refine ⟨g.vertices j0, ?_, ⟨j0, hj0n, rfl⟩, ?_⟩
  · rw [hca]
    simp only
    rw [ha1eq, hvs]
    simp
  intro j hj hmem
  by_contra hlt
  have hjj0 : j < j0 := by
    have := vertexIndex_le_of_eq g j0 hj0n
    omega
  -- the vertex at position `j` lies on the cycle
  have hx : g.vertices j ∈ vs := by
    rw [hca] at hmem
    simp only [List.take_length] at hmem
    rw [ha1eq] at hmem
    rcases List.mem_append.1 hmem with h | h
    · exact h
    · simp at h
      rw [h, hvs]
      exact List.mem_cons_self _ _
  obtain ⟨l1, l2, hl⟩ := List.append_of_mem hx
  rw [hl] at hcyc
  obtain ⟨ws1, hcyc1, hsum⟩ := SimpleCycle_rotate g l1 l2 (g.vertices j) ws hcyc
  -- the rotated cycle was submitted from the earlier root `j`
  obtain ⟨cs2, hcs2, _⟩ := findCandsFrom_sub g fuel _ _ cs hcs j (Nat.zero_le _) (by omega)
  have hb := dfsCands_root_complete g fuel j cs2 hcs2 _ ws1 hcyc1 rfl
  have hbpre := hearlier j (Nat.zero_le _) hjj0 cs2 hcs2 _ hb
  have hcov := registerAll_covers pre [] _ hbpre
  rw [isCycleUnique_eq_false] at hcov
  obtain ⟨c1, hc1, hl1, hp1, hsub⟩ := hcov
  have hfalse : isCycleUnique (registerAll [] pre) a.1 a.1.length a.2 = false := by
    rw [isCycleUnique_eq_false]
    have hlen : a.1.length = ((g.vertices j :: l2 ++ l1) ++
        (g.vertices j :: l2 ++ l1).take 1).length := by
      rw [ha1eq, hl]
      simp
      omega
    refine ⟨c1, hc1, by rw [hl1, hlen], by rw [hp1, ha2eq, hsum], ?_⟩
    intro y hy
    rw [hlen]
    apply hsub
    rw [List.take_length]
    have hy1 : y ∈ a.1 := List.mem_of_mem_take hy
    rw [ha1eq, hl] at hy1
    have hy2 : y ∈ l1 ++ g.vertices j :: l2 := by
      rcases List.mem_append.1 hy1 with h | h
      · exact h
      · simp at h
        rw [h, ← hl, hvs]
        exact List.mem_cons_self _ _
    apply List.mem_append_left
    rcases List.mem_append.1 hy2 with h | h
    · exact List.mem_append_right _ h
    · exact List.mem_append_left _ h
  rw [hfalse] at huniq
  exact absurd huniq (by simp)

/-- C20 (canonical starting vertex): every entry that `findCycles` registers
from an empty registry starts, at `nodes[0]`, with a vertex of the graph, and
no vertex of the entry stands in the vertex array before that vertex: every
position `j` of the array that holds a vertex of the entry is at or after the
position of `nodes[0]`.  Distinct labels and known endpoints are not needed for
this. -/
theorem findCycles_canonical_start (g : Graph) (k : Nat) :
    ∃ reg, findCycles (dfsFuel g + k) g [] = some reg ∧
      ∀ c ∈ reg, ∃ r, c.nodes[0]? = some r ∧ IsVertex g r ∧
        g.vertices (vertexIndex g r) = r ∧
        ∀ j, j < g.numVertices → g.vertices j ∈ c.nodes.take c.length →
          vertexIndex g r ≤ j := by
  obtain ⟨cs, h1, h2⟩ := findCycles_run g k []
  refine ⟨_, h2, ?_⟩
  intro c hc
  obtain ⟨r, hr1, hr2, hr3⟩ := registerAll_first_root g _ cs h1 c hc
  exact ⟨r, hr1, hr2, (vertexIndex_of_isVertex g r hr2).2, hr3⟩

/-! ## Sums within the range of `int` -/

theorem registerCycle_length_le (cycles : List Cycle) (p : List Char) (len : Nat) (per : Int) :
    cycles.length ≤ (registerCycle cycles p len per).length := by
  unfold registerCycle
  split
  · simp
  · exact le_refl _

end CycleFinder
